import Mathlib

/-!
Verification development for the `amharic-name-search` library.

The TypeScript sources are embedded shallowly:

* JavaScript strings are modelled as Lean `String`s (all inputs in play are
  BMP code points, where JS `length`/indexing coincide with code points).
* `String.prototype.toLowerCase`/`toUpperCase` are modelled by their action
  on the ASCII range; they are the identity on the Ethiopic block, the only
  other script handled by the library.
* JS `number` arithmetic on the fractional distance scores is modelled by
  `ℚ` (all scores are small dyadic/decimal rationals, far from any float
  rounding boundary).
* Thrown `ValidationError`s are modelled with `Except`.
-/

set_option maxRecDepth 20000

/-- Models a JavaScript value passed where a string is expected
(`validateAndSanitizeInput` takes `unknown`): an actual string, a
nullish value (`null`/`undefined`), or any other non-string value. -/
inductive JsVal where
  | str (s : String)
  | nullish
  | other
deriving DecidableEq

/-- Raw string payload of a `JsVal` (meaningful once validation succeeded). -/
def JsVal.rawStr : JsVal → String
  | JsVal.str s => s
  | _ => ""

/-- JS WhiteSpace and LineTerminator code points, as used by `String.trim`
and the `\s` regex class. -/
def isJsWhitespace (c : Char) : Bool :=
  let n := c.toNat
  (9 ≤ n && n ≤ 13) || n == 32 || n == 160 || n == 0x1680 ||
  (0x2000 ≤ n && n ≤ 0x200A) || n == 0x2028 || n == 0x2029 ||
  n == 0x202F || n == 0x205F || n == 0x3000 || n == 0xFEFF

/-- Characters removed by `CONTROL_CHARACTERS_REGEX = /[\x00-\x1F\x7F-\x9F]/g`. -/
def isControlChar (c : Char) : Bool :=
  let n := c.toNat
  n ≤ 0x1F || (0x7F ≤ n && n ≤ 0x9F)

/-- ASCII action of `String.prototype.toLowerCase` (identity elsewhere;
the Ethiopic block has no case). -/
def toLowerChar (c : Char) : Char :=
  if 65 ≤ c.toNat && c.toNat ≤ 90 then Char.ofNat (c.toNat + 32) else c

/-- ASCII action of `String.prototype.toUpperCase` (identity elsewhere). -/
def toUpperChar (c : Char) : Char :=
  if 97 ≤ c.toNat && c.toNat ≤ 122 then Char.ofNat (c.toNat - 32) else c

def jsToLower (s : String) : String := String.mk (s.data.map toLowerChar)

def jsToUpper (s : String) : String := String.mk (s.data.map toUpperChar)

def jsTrimList (l : List Char) : List Char :=
  ((l.dropWhile isJsWhitespace).reverse.dropWhile isJsWhitespace).reverse

/-- Models `String.prototype.trim`. -/
def jsTrim (s : String) : String := String.mk (jsTrimList s.data)

/-- Models `input.replace(CONTROL_CHARACTERS_REGEX, '')`. -/
def stripControl (s : String) : String :=
  String.mk (s.data.filter (fun c => !isControlChar c))

/-- Models `String.prototype.includes` (substring containment). -/
def jsIncludes (s sub : String) : Bool :=
  s.data.tails.any (fun t => sub.data.isPrefixOf t)

/-- Models `String.prototype.startsWith`. -/
def jsStartsWith (s pre : String) : Bool := pre.data.isPrefixOf s.data

/-- Models `s.substring(0, n)` for `n ≤ s.length`. -/
def jsSubstringTo (s : String) (n : Nat) : String := String.mk (s.data.take n)

def wordsWsAux : List Char → List Char → List (List Char)
  | [], acc => if acc.isEmpty then [] else [acc.reverse]
  | c :: rest, acc =>
    if isJsWhitespace c then
      if acc.isEmpty then wordsWsAux rest [] else acc.reverse :: wordsWsAux rest []
    else wordsWsAux rest (c :: acc)

/-- Models `s.split(/\s+/).filter(w => w.length > 0)`: the maximal runs of
non-whitespace characters. -/
def jsSplitWsWords (s : String) : List String :=
  (wordsWsAux s.data []).map String.mk

/-- Error value observed from a thrown `ValidationError` (`errors.ts`):
the class constructor stores the fixed string `"VALIDATION_ERROR"` in its
`code` field and forwards its second argument into `cause`. -/
structure ValidationError where
  code : String
  cause : String
deriving DecidableEq

/-- Models `new ValidationError(message, ERROR_CODES.X)`: the constructor
signature is `(message, cause?)`, so the specific error code lands in
`cause` while `code` is always `"VALIDATION_ERROR"`. -/
def mkValidationError (causeCode : String) : ValidationError :=
  { code := "VALIDATION_ERROR", cause := causeCode }

def MAX_INPUT_LENGTH : Nat := 1000

def MAX_QUERY_LENGTH : Nat := 500

/-- Decidable equality for `Except` results, used to evaluate the embedded
functions on concrete inputs. -/
instance {e a : Type} [DecidableEq e] [DecidableEq a] : DecidableEq (Except e a) := fun x y =>
  match x, y with
  | Except.ok u, Except.ok v =>
    if h : u = v then isTrue (by rw [h]) else isFalse (by simp [h])
  | Except.error u, Except.error v =>
    if h : u = v then isTrue (by rw [h]) else isFalse (by simp [h])
  | Except.ok _, Except.error _ => isFalse (by simp)
  | Except.error _, Except.ok _ => isFalse (by simp)

/-- Embeds `validateAndSanitizeInput` from `validation.ts`. -/
def validateAndSanitizeInput (input : JsVal) (maxLength : Nat) :
    Except ValidationError String :=
  match input with
  | JsVal.str s =>
    if s.length = 0 then Except.error (mkValidationError "INPUT_EMPTY")
    else if s.length > maxLength then Except.error (mkValidationError "INPUT_TOO_LONG")
    else
      let sanitized := jsTrim (stripControl s)
      if sanitized.length = 0 then Except.error (mkValidationError "INVALID_CHARACTERS")
      else Except.ok sanitized
  | _ => Except.error (mkValidationError "INVALID_INPUT_TYPE")

/-- Embeds `validateSearchQuery` from `validation.ts`: empty/nullish and
whitespace-only queries become `""`; otherwise it delegates to
`validateAndSanitizeInput` and re-raises unless `error.code` equals
`'INVALID_CHARACTERS'` (which, given how `ValidationError` fills `code`,
can never hold). -/
def validateSearchQuery (query : JsVal) : Except ValidationError String :=
  match query with
  | JsVal.nullish => Except.ok ""
  | JsVal.str s =>
    if s = "" then Except.ok ""
    else if jsTrim s = "" then Except.ok ""
    else
      match validateAndSanitizeInput (JsVal.str s) MAX_QUERY_LENGTH with
      | Except.ok r => Except.ok r
      | Except.error e =>
        if e.code = "INVALID_CHARACTERS" then Except.ok "" else Except.error e
  | JsVal.other =>
    match validateAndSanitizeInput JsVal.other MAX_QUERY_LENGTH with
    | Except.ok r => Except.ok r
    | Except.error e =>
      if e.code = "INVALID_CHARACTERS" then Except.ok "" else Except.error e

/-- Edit-distance recurrence with insertion/deletion cost 1 and the given
substitution cost: the defining recurrence of the DP matrices filled by
`levenshteinDistance` (`utils.ts`) and `transliterationAwareDistance`
(`romanization.ts`). -/
def editRec {a : Type} [Min a] [Add a] [One a] [NatCast a]
    (cost : Char → Char → a) : List Char → List Char → a
  | [], t => (t.length : a)
  | s, [] => (s.length : a)
  | c1 :: s, c2 :: t =>
    min (editRec cost s (c2 :: t) + 1)
      (min (editRec cost (c1 :: s) t + 1)
        (editRec cost s t + cost c1 c2))

/-- One row update of the edit-distance DP: from the row of values for `s`
against every suffix of `t`, compute the row for `c1 :: s`. Entry `j` holds
the distance between the current first-string suffix and `t.drop j`; the
three `min` arguments are the deletion, insertion and substitution cells of
the source's matrix recurrence. -/
def editRowStep {a : Type} [Min a] [Add a] [One a] [Zero a]
    (cost : Char → Char → a) (c1 : Char) : List Char → List a → List a
  | [], oldRow => [oldRow.headD 0 + 1]
  | c2 :: t, oldRow =>
    let rest := editRowStep cost c1 t oldRow.tail
    min (oldRow.headD 0 + 1)
      (min (rest.headD 0 + 1) (oldRow.tail.headD 0 + cost c1 c2)) :: rest

/-- The initial DP row: distances of the empty string against every suffix
of `t` (the `matrix[0][j] = j` initialisation, re-indexed by suffixes). -/
def editRowInit {a : Type} [NatCast a] (t : List Char) : List a :=
  t.tails.map (fun u => (u.length : a))

/-- The full DP computed row by row, as the source's nested loops fill the
matrix; the answer is entry 0 of the final row. -/
def editDP {a : Type} [Min a] [Add a] [One a] [Zero a] [NatCast a]
    (cost : Char → Char → a) (s t : List Char) : a :=
  (s.foldr (fun c row => editRowStep cost c t row) (editRowInit t)).headD 0

/-- Substitution cost of `levenshteinDistance` in `utils.ts`:
`str1[i-1] === str2[j-1] ? 0 : 1`. -/
def levSubCost (c1 c2 : Char) : Nat := if c1 = c2 then 0 else 1

/-- Embeds `levenshteinDistance` from `utils.ts`. -/
def levenshteinDistance (str1 str2 : String) : Nat :=
  editDP levSubCost str1.data str2.data

/-- Embeds `similarityRatio` from `utils.ts`. -/
def similarityRatio (str1 str2 : String) : ℚ :=
  let maxLength := max str1.length str2.length
  if maxLength = 0 then 1
  else 1 - (levenshteinDistance str1 str2 : ℚ) / (maxLength : ℚ)

/-- Membership in the `vowels` set of `romanization.ts`. -/
def isVowelChar (c : Char) : Bool :=
  c = 'a' || c = 'e' || c = 'i' || c = 'u' || c = 'o'

/-- Models `consonantVariants[c1]?.has(c2)` for the map
`{s: {z}, z: {s}, t: {d}, d: {t}}` in `romanization.ts`. -/
def consonantVariantHas (c1 c2 : Char) : Bool :=
  (c1 = 's' && c2 = 'z') || (c1 = 'z' && c2 = 's') ||
  (c1 = 't' && c2 = 'd') || (c1 = 'd' && c2 = 't')

/-- Substitution cost used by `transliterationAwareDistance`. -/
def tadSubCost (c1 c2 : Char) : ℚ :=
  if c1 = c2 then 0
  else if isVowelChar c1 && isVowelChar c2 then 0.3
  else if consonantVariantHas c1 c2 || consonantVariantHas c2 c1 then 0.5
  else 1

/-- Embeds `transliterationAwareDistance` from `romanization.ts`, including
its early returns for empty input and equal lowercased strings. -/
def transliterationAwareDistance (str1 str2 : String) : ℚ :=
  if str1 = "" || str2 = "" then ((max str1.length str2.length : Nat) : ℚ)
  else
    let s1 := jsToLower str1
    let s2 := jsToLower str2
    if s1 = s2 then 0
    else editDP tadSubCost s1.data s2.data

/-- Embeds `matchesTransliterationVariant` from `romanization.ts`. -/
def matchesTransliterationVariant (str1 str2 : String) (maxDistance : ℚ) : Bool :=
  if str1 = "" || str2 = "" then false
  else
    let s1 := jsToLower str1
    let s2 := jsToLower str2
    if s1 = s2 then true
    else if jsIncludes s1 s2 || jsIncludes s2 s1 then true
    else decide (transliterationAwareDistance s1 s2 ≤ maxDistance)

/-- The `phoneticMap` table of `utils.ts`. -/
def phoneticMap (c : Char) : Option String :=
  match c with
  | 'አ' => some "A" | 'ኡ' => some "U" | 'ኢ' => some "I" | 'ኤ' => some "E"
  | 'ኦ' => some "O"
  | 'በ' => some "B" | 'ቡ' => some "BU" | 'ቢ' => some "BI" | 'ቤ' => some "BE"
  | 'ቦ' => some "BO"
  | 'ተ' => some "T" | 'ቱ' => some "TU" | 'ቲ' => some "TI" | 'ቴ' => some "TE"
  | 'ቶ' => some "TO"
  | 'ሀ' => some "H" | 'ሁ' => some "HU" | 'ሂ' => some "HI" | 'ሄ' => some "HE"
  | 'ሆ' => some "HO"
  | 'መ' => some "M" | 'ሙ' => some "MU" | 'ሚ' => some "MI" | 'ሜ' => some "ME"
  | 'ሞ' => some "MO"
  | 'ረ' => some "R" | 'ሩ' => some "RU" | 'ሪ' => some "RI" | 'ሬ' => some "RE"
  | 'ሮ' => some "RO"
  | 'ሰ' => some "S" | 'ሱ' => some "SU" | 'ሲ' => some "SI" | 'ሴ' => some "SE"
  | 'ሶ' => some "SO"
  | 'የ' => some "Y" | 'ዩ' => some "YU" | 'ዪ' => some "YI" | 'ዬ' => some "YE"
  | 'ዮ' => some "YO"
  | _ => none

/-- Lowercase ASCII letter test, `/[a-z]/` on already-lowercased input. -/
def isAsciiLowerAlpha (c : Char) : Bool := 97 ≤ c.toNat && c.toNat ≤ 122

def dedupFirstAux : List Char → List Char → List Char
  | [], _ => []
  | c :: rest, seen =>
    if seen.contains c then dedupFirstAux rest seen
    else c :: dedupFirstAux rest (c :: seen)

/-- Keeps the first occurrence of every character, models the
`filter((char, index, arr) => arr.indexOf(char) === index)` step. -/
def dedupFirst (l : List Char) : List Char := dedupFirstAux l []

/-- Embeds `phoneticHash` from `utils.ts`. -/
def phoneticHash (input : String) : String :=
  if input = "" then ""
  else
    let normalized := jsTrim (jsToLower input)
    if normalized = "" then ""
    else
      let hash := normalized.data.foldl
        (fun h c =>
          match phoneticMap c with
          | some m => h ++ m.data
          | none => if isAsciiLowerAlpha c then h ++ [toUpperChar c] else h) []
      let unique := (dedupFirst hash).take 6
      if unique = [] then String.mk ((normalized.data.take 6).map toUpperChar)
      else String.mk unique

/-- Embeds `isPhoneticallySimilar` from `utils.ts`. -/
def isPhoneticallySimilar (str1 str2 : String) : Bool :=
  let hash1 := phoneticHash str1
  let hash2 := phoneticHash str2
  if hash1 = "" || hash2 = "" then false
  else if hash1 = hash2 then true
  else decide (similarityRatio hash1 hash2 ≥ 0.7)

/-- The `AMHARIC_TO_ASCII` table of `romanization.ts`, as the underlying
record of (Ethiopic syllable, ASCII romanization) pairs. -/
def AMHARIC_TO_ASCII : List (Char × String) :=
  [('ሀ', "ha"), ('ሁ', "hu"), ('ሂ', "hi"), ('ሃ', "ha"), ('ሄ', "he"), ('ህ', "h"), ('ሆ', "ho"),
   ('ለ', "la"), ('ሉ', "lu"), ('ሊ', "li"), ('ላ', "la"), ('ሌ', "le"), ('ል', "l"), ('ሎ', "lo"),
   ('ሐ', "ha"), ('ሑ', "hu"), ('ሒ', "hi"), ('ሓ', "ha"), ('ሔ', "he"), ('ሕ', "h"), ('ሖ', "ho"),
   ('መ', "ma"), ('ሙ', "mu"), ('ሚ', "mi"), ('ማ', "ma"), ('ሜ', "me"), ('ም', "m"), ('ሞ', "mo"),
   ('ሠ', "sa"), ('ሡ', "su"), ('ሢ', "si"), ('ሣ', "sa"), ('ሤ', "se"), ('ሥ', "s"), ('ሦ', "so"),
   ('ረ', "ra"), ('ሩ', "ru"), ('ሪ', "ri"), ('ራ', "ra"), ('ሬ', "re"), ('ር', "r"), ('ሮ', "ro"),
   ('ሰ', "sa"), ('ሱ', "su"), ('ሲ', "si"), ('ሳ', "sa"), ('ሴ', "se"), ('ስ', "s"), ('ሶ', "so"),
   ('ሸ', "sha"), ('ሹ', "shu"), ('ሺ', "shi"), ('ሻ', "sha"), ('ሼ', "she"), ('ሽ', "sh"), ('ሾ', "sho"),
   ('ቀ', "qa"), ('ቁ', "qu"), ('ቂ', "qi"), ('ቃ', "qa"), ('ቄ', "qe"), ('ቅ', "q"), ('ቆ', "qo"),
   ('በ', "ba"), ('ቡ', "bu"), ('ቢ', "bi"), ('ባ', "ba"), ('ቤ', "be"), ('ብ', "b"), ('ቦ', "bo"),
   ('ተ', "ta"), ('ቱ', "tu"), ('ቲ', "ti"), ('ታ', "ta"), ('ቴ', "te"), ('ት', "t"), ('ቶ', "to"),
   ('ቸ', "cha"), ('ቹ', "chu"), ('ቺ', "chi"), ('ቻ', "cha"), ('ቼ', "che"), ('ች', "ch"), ('ቾ', "cho"),
   ('ኀ', "ha"), ('ኁ', "hu"), ('ኂ', "hi"), ('ኃ', "ha"), ('ኄ', "he"), ('ኅ', "h"), ('ኆ', "ho"),
   ('ነ', "na"), ('ኑ', "nu"), ('ኒ', "ni"), ('ና', "na"), ('ኔ', "ne"), ('ን', "n"), ('ኖ', "no"),
   ('ኘ', "nya"), ('ኙ', "nyu"), ('ኚ', "nyi"), ('ኛ', "nya"), ('ኜ', "nye"), ('ኝ', "ny"), ('ኞ', "nyo"),
   ('አ', "a"), ('ኡ', "u"), ('ኢ', "i"), ('ኣ', "a"), ('ኤ', "e"), ('እ', "e"), ('ኦ', "o"),
   ('ከ', "ka"), ('ኩ', "ku"), ('ኪ', "ki"), ('ካ', "ka"), ('ኬ', "ke"), ('ክ', "k"), ('ኮ', "ko"),
   ('ኸ', "ha"), ('ኹ', "hu"), ('ኺ', "hi"), ('ኻ', "ha"), ('ኼ', "he"), ('ኽ', "h"), ('ኾ', "ho"),
   ('ወ', "wa"), ('ዉ', "wu"), ('ዊ', "wi"), ('ዋ', "wa"), ('ዌ', "we"), ('ው', "w"), ('ዎ', "wo"),
   ('ዐ', "a"), ('ዑ', "u"), ('ዒ', "i"), ('ዓ', "a"), ('ዔ', "e"), ('ዕ', "e"), ('ዖ', "o"),
   ('ዘ', "za"), ('ዙ', "zu"), ('ዚ', "zi"), ('ዛ', "za"), ('ዜ', "ze"), ('ዝ', "z"), ('ዞ', "zo"),
   ('ዠ', "zha"), ('ዡ', "zhu"), ('ዢ', "zhi"), ('ዣ', "zha"), ('ዤ', "zhe"), ('ዥ', "zh"), ('ዦ', "zho"),
   ('የ', "ya"), ('ዩ', "yu"), ('ዪ', "yi"), ('ያ', "ya"), ('ዬ', "ye"), ('ይ', "y"), ('ዮ', "yo"),
   ('ደ', "da"), ('ዱ', "du"), ('ዲ', "di"), ('ዳ', "da"), ('ዴ', "de"), ('ድ', "d"), ('ዶ', "do"),
   ('ጀ', "ja"), ('ጁ', "ju"), ('ጂ', "ji"), ('ጃ', "ja"), ('ጄ', "je"), ('ጅ', "j"), ('ጆ', "jo"),
   ('ገ', "ga"), ('ጉ', "gu"), ('ጊ', "gi"), ('ጋ', "ga"), ('ጌ', "ge"), ('ግ', "g"), ('ጎ', "go"),
   ('ጠ', "ta"), ('ጡ', "tu"), ('ጢ', "ti"), ('ጣ', "ta"), ('ጤ', "te"), ('ጥ', "t"), ('ጦ', "to"),
   ('ጨ', "cha"), ('ጩ', "chu"), ('ጪ', "chi"), ('ጫ', "cha"), ('ጬ', "che"), ('ጭ', "ch"), ('ጮ', "cho"),
   ('ጰ', "pa"), ('ጱ', "pu"), ('ጲ', "pi"), ('ጳ', "pa"), ('ጴ', "pe"), ('ጵ', "p"), ('ጶ', "po"),
   ('ጸ', "tsa"), ('ጹ', "tsu"), ('ጺ', "tsi"), ('ጻ', "tsa"), ('ጼ', "tse"), ('ጽ', "ts"), ('ጾ', "tso"),
   ('ፀ', "tsa"), ('ፁ', "tsu"), ('ፂ', "tsi"), ('ፃ', "tsa"), ('ፄ', "tse"), ('ፅ', "ts"), ('ፆ', "tso"),
   ('ፈ', "fa"), ('ፉ', "fu"), ('ፊ', "fi"), ('ፋ', "fa"), ('ፌ', "fe"), ('ፍ', "f"), ('ፎ', "fo"),
   ('ፐ', "pa"), ('ፑ', "pu"), ('ፒ', "pi"), ('ፓ', "pa"), ('ፔ', "pe"), ('ፕ', "p"), ('ፖ', "po"),
   ('ቨ', "va"), ('ቩ', "vu"), ('ቪ', "vi"), ('ቫ', "va"), ('ቬ', "ve"), ('ቭ', "v"), ('ቮ', "vo")]

/-- Models the record lookup `AMHARIC_TO_ASCII[ch]`. -/
def amharicToAscii (c : Char) : Option String :=
  (AMHARIC_TO_ASCII.find? (fun p => p.1 = c)).map (fun p => p.2)

/-- ASCII alphanumeric test, `/[a-z0-9]/i`. -/
def isAsciiAlnumChar (c : Char) : Bool :=
  let n := c.toNat
  (48 ≤ n && n ≤ 57) || (65 ≤ n && n ≤ 90) || (97 ≤ n && n ≤ 122)

/-- Embeds `normalizeAscii` from `romanization.ts`: lowercase, collapse
whitespace runs (`replace(/\s+/g, ' ')`) and trim; equivalently, the
whitespace-separated words joined by single spaces. -/
def normalizeAscii (input : String) : String :=
  String.intercalate " " (jsSplitWsWords (jsToLower input))

/-- Embeds `romanizeAmharicToAscii` from `romanization.ts`. -/
def romanizeAmharicToAscii (input : String) : String :=
  if input = "" then ""
  else
    let result := input.data.foldl
      (fun r ch =>
        match amharicToAscii ch with
        | some m => r ++ m.data
        | none =>
          if ch = ' ' then r ++ [' ']
          else if isAsciiAlnumChar ch then r ++ [toLowerChar ch]
          else r ++ [' ']) []
    normalizeAscii (String.mk result)

/-- Embeds `containsAmharic` from `romanization.ts`:
`/[\u1200-\u137F]/.test(input)`. -/
def containsAmharic (input : String) : Bool :=
  input.data.any (fun c => 0x1200 ≤ c.toNat && c.toNat ≤ 0x137F)

mutual
/-- `TrieNode` of `trie.ts`: a children map, the Amharic variant set at
this node, and the terminal flag. -/
inductive NameTrie where
  | node (children : TrieChildren) (amharicVariants : List String) (isEnd : Bool)
/-- The `Map<string, TrieNode>` of children, as an insertion-ordered
association list with unique keys. -/
inductive TrieChildren where
  | nil
  | cons (key : Char) (child : NameTrie) (rest : TrieChildren)
end

/-- Models `children.get(c)` (with `children.has(c)` as `isSome`). -/
def TrieChildren.get : TrieChildren → Char → Option NameTrie
  | TrieChildren.nil, _ => none
  | TrieChildren.cons k t rest, c =>
    if k = c then some t else TrieChildren.get rest c

/-- Models `children.set(c, t)`: update in place if present, else append. -/
def TrieChildren.set : TrieChildren → Char → NameTrie → TrieChildren
  | TrieChildren.nil, c, t => TrieChildren.cons c t TrieChildren.nil
  | TrieChildren.cons k u rest, c, t =>
    if k = c then TrieChildren.cons k t rest
    else TrieChildren.cons k u (TrieChildren.set rest c t)

/-- A fresh empty node, as built by the `NameTrie` constructor. -/
def NameTrie.emptyNode : NameTrie := NameTrie.node TrieChildren.nil [] false

/-- Models adding to a JS `Set<string>` kept as an insertion-ordered list. -/
def setAddStr (l : List String) (x : String) : List String :=
  if l.contains x then l else l ++ [x]

/-- Character-by-character walk shared by `insert`/`searchExact`/`searchPrefix`
(each loops `for (const char of ...)` over `node.children`). -/
def NameTrie.walk : NameTrie → List Char → Option NameTrie
  | t, [] => some t
  | NameTrie.node ch _ _, c :: rest =>
    match TrieChildren.get ch c with
    | none => none
    | some t => NameTrie.walk t rest

/-- Recursive core of `insert` (the source's loop, with node creation for
missing children). -/
def NameTrie.insertAux : NameTrie → List Char → String → NameTrie
  | NameTrie.node ch vars _, [], amharic =>
    NameTrie.node ch (setAddStr vars amharic) true
  | NameTrie.node ch vars e, c :: rest, amharic =>
    let child :=
      match TrieChildren.get ch c with
      | some t => t
      | none => NameTrie.emptyNode
    NameTrie.node (TrieChildren.set ch c (NameTrie.insertAux child rest amharic)) vars e

/-- Embeds `NameTrie.insert` from `trie.ts`. -/
def NameTrie.insert (t : NameTrie) (english amharic : String) : NameTrie :=
  NameTrie.insertAux t (jsToLower english).data amharic

/-- Embeds `NameTrie.searchExact` from `trie.ts`. -/
def NameTrie.searchExact (t : NameTrie) (query : String) : List String :=
  match NameTrie.walk t (jsToLower query).data with
  | none => []
  | some (NameTrie.node _ vars e) => if e then vars else []

mutual
/-- Embeds the private `collectVariants` of `trie.ts` (variants of the node,
then recursively of every child). -/
def NameTrie.collectVariants : NameTrie → List String → List String
  | NameTrie.node ch vars _, results =>
    TrieChildren.collectVariants ch (vars.foldl setAddStr results)
def TrieChildren.collectVariants : TrieChildren → List String → List String
  | TrieChildren.nil, results => results
  | TrieChildren.cons _ t rest, results =>
    TrieChildren.collectVariants rest (NameTrie.collectVariants t results)
end

/-- Embeds `NameTrie.searchPrefix` from `trie.ts`. -/
def NameTrie.searchPrefix (t : NameTrie) (pre : String) : List String :=
  match NameTrie.walk t (jsToLower pre).data with
  | none => []
  | some n => NameTrie.collectVariants n []

/-- Embeds `NameTrie.searchContains` from `trie.ts`: union of
`searchPrefix` over every suffix of the lowercased query. -/
def NameTrie.searchContains (t : NameTrie) (query : String) : List String :=
  let normalized := (jsToLower query).data
  (List.range normalized.length).foldl
    (fun results i =>
      (NameTrie.searchPrefix t (String.mk (normalized.drop i))).foldl setAddStr results)
    []

/-- Embeds `NameTrie.fromMappings` from `trie.ts`. -/
def NameTrie.fromMappings (mappings : List (String × String)) : NameTrie :=
  mappings.foldl (fun t p => NameTrie.insert t p.1 p.2) NameTrie.emptyNode

/-- Modelled from the spec: `COMMON_NAMES` lives in `src/name-mappings.ts`,
which is not among the provided sources. The spec treats the dictionary as
"a provided immutable resource" mapping a lowercase Latin key to one
Ethiopic rendering; these are the pairs the repository documentation lists
(README "Supported Names" and the test suite). -/
def COMMON_NAMES : List (String × String) :=
  [("amanuel", "\u12a0\u121b\u1291\u12a4\u120d"),
   ("tadesse", "\u1273\u12f0\u1230"),
   ("tesfaye", "\u1270\u1235\u134b\u12ec"),
   ("yohannes", "\u12ee\u1210\u1295\u1235"),
   ("mariam", "\u121b\u122d\u12eb\u121d")]

/-- Embeds the lazy `getNameTrie` of `transliteration.ts`. -/
def getNameTrie (commonNames : List (String × String)) : NameTrie :=
  NameTrie.fromMappings commonNames

/-- The trie-lookup core of `transliterateToAmharic`: exact matches, plus
prefix and contains matches when `includePartialMatches`, accumulated in a
JS `Set` and read back as an array. -/
def computeVariants (commonNames : List (String × String)) (lower : String)
    (includePartialMatches : Bool) : List String :=
  let trie := getNameTrie commonNames
  let results := (NameTrie.searchExact trie lower).foldl setAddStr []
  if includePartialMatches then
    let results := (NameTrie.searchPrefix trie lower).foldl setAddStr results
    (NameTrie.searchContains trie lower).foldl setAddStr results
  else results

/-- The `typeof englishText === 'string' && englishText.trim().length === 0`
early-return guard of `transliterateToAmharic`. -/
def isBlankStringInput : JsVal → Bool
  | JsVal.str s => jsTrim s = ""
  | _ => false

/-- Embeds `transliterateToAmharic` from `transliteration.ts`, without the
result cache (the cached variant is `transliterateToAmharicCached` below;
the two agree on every valid cache state). -/
def transliterateToAmharic (commonNames : List (String × String))
    (englishText : JsVal) (includePartialMatches : Bool) :
    Except ValidationError (List String) :=
  if isBlankStringInput englishText then Except.ok []
  else
    match validateAndSanitizeInput englishText MAX_INPUT_LENGTH with
    | Except.error e => Except.error e
    | Except.ok sanitized =>
      let lower := jsTrim (jsToLower sanitized)
      if lower = "" then Except.ok []
      else Except.ok (computeVariants commonNames lower includePartialMatches)

/-- `MatchOptions` from `types.ts` with the defaults destructured in
`matchesName` (`maxDistance` is a JS number, modelled as `ℚ`). -/
structure MatchOptions where
  caseSensitive : Bool := false
  wholeWord : Bool := false
  fuzzy : Bool := false
  maxDistance : ℚ := 2
  phonetic : Bool := false
deriving DecidableEq

/-- Stage "Direct match" of `matchesName` (lines 188-220): whole-word
equality, or substring containment (length-ratio-guarded when `fuzzy`),
plus the same-script transliteration-variant prefix check. -/
def directStage (nameTrimmed queryTrimmed : String) (o : MatchOptions) : Bool :=
  if o.wholeWord then nameTrimmed = queryTrimmed
  else
    let substrHit := jsIncludes nameTrimmed queryTrimmed || jsIncludes queryTrimmed nameTrimmed
    let direct :=
      if o.fuzzy then
        decide ((min nameTrimmed.length queryTrimmed.length : ℚ) /
          (max nameTrimmed.length queryTrimmed.length : ℚ) ≥ 0.7) && substrHit
      else substrHit
    direct ||
      (!o.caseSensitive && queryTrimmed.length ≥ 2 &&
        nameTrimmed.length ≥ queryTrimmed.length &&
        matchesTransliterationVariant (jsSubstringTo nameTrimmed queryTrimmed.length)
          queryTrimmed 1.5)

/-- Stage "Fuzzy matching" of `matchesName` (lines 223-239). -/
def fuzzyStage (nameTrimmed queryTrimmed : String) (o : MatchOptions) : Bool :=
  o.fuzzy &&
    (let distance := levenshteinDistance nameTrimmed queryTrimmed
     let maxLen := max nameTrimmed.length queryTrimmed.length
     let minLen := min nameTrimmed.length queryTrimmed.length
     decide ((distance : ℚ) ≤ o.maxDistance) && decide (maxLen > 0) &&
       (decide ((distance : ℚ) ≤ o.maxDistance) &&
        decide ((distance : ℚ) / (maxLen : ℚ) ≤ 0.25) &&
        decide ((minLen : ℚ) / (maxLen : ℚ) ≥ 0.6)))

/-- Stage "Phonetic matching" of `matchesName` (lines 242-246). -/
def phoneticStage (nameTrimmed queryTrimmed : String) (o : MatchOptions) : Bool :=
  o.phonetic && isPhoneticallySimilar nameTrimmed queryTrimmed

/-- The fuzzy whole-string check shared by the two romanization stages
(lines 314-329 and 370-386), with their stage-specific thresholds. -/
def fuzzyDistanceCheck (a b : String) (maxDistance ndThresh ratioThresh : ℚ) : Bool :=
  let distance := levenshteinDistance a b
  let maxLen := max a.length b.length
  let minLen := min a.length b.length
  decide (maxLen > 0) &&
    (decide ((distance : ℚ) ≤ maxDistance) &&
     decide ((distance : ℚ) / (maxLen : ℚ) ≤ ndThresh) &&
     decide ((minLen : ℚ) / (maxLen : ℚ) ≥ ratioThresh))

/-- One query word against one romanized-name word in the multi-word check
of `matchesName` (lines 276-307). -/
def wordMatchesNameWord (queryWord nameWord : String) : Bool :=
  jsIncludes nameWord queryWord || jsIncludes queryWord nameWord ||
  jsStartsWith nameWord queryWord || jsStartsWith queryWord nameWord ||
  (queryWord.length ≥ 2 && nameWord.length ≥ queryWord.length &&
    (let namePrefix := jsSubstringTo nameWord queryWord.length
     matchesTransliterationVariant namePrefix queryWord 2.0 ||
       (levenshteinDistance (jsToLower namePrefix) (jsToLower queryWord) ≤ 2 &&
        namePrefix.length ≥ 2)))

/-- The multi-word romanized match of `matchesName` (lines 270-312): every
query word must match some romanized-name word. -/
def multiWordMatch (romanizedName queryTrimmed : String) : Bool :=
  let queryWords := jsSplitWsWords queryTrimmed
  let nameWords := jsSplitWsWords romanizedName
  queryWords.all (fun qw => nameWords.any (fun nw => wordMatchesNameWord qw nw))

/-- Stage "name is Amharic, query is English" of `matchesName`
(lines 256-331), assuming its guards hold. -/
def romanizedNameStage (romanizedName queryTrimmed : String) (o : MatchOptions) : Bool :=
  romanizedName = queryTrimmed ||
  jsIncludes romanizedName queryTrimmed || jsIncludes queryTrimmed romanizedName ||
  (jsIncludes queryTrimmed " " && multiWordMatch romanizedName queryTrimmed) ||
  (o.fuzzy && fuzzyDistanceCheck romanizedName queryTrimmed o.maxDistance 0.35 0.5)

/-- Stage "query is Amharic, name is English" of `matchesName`
(lines 334-388), assuming its guards hold. -/
def romanizedQueryStage (nameTrimmed romanizedQuery : String) (o : MatchOptions) : Bool :=
  nameTrimmed = romanizedQuery ||
  jsIncludes nameTrimmed romanizedQuery ||
  jsStartsWith nameTrimmed romanizedQuery ||
  (romanizedQuery.length ≥ 2 && nameTrimmed.length ≥ romanizedQuery.length &&
    (let namePrefix := jsSubstringTo nameTrimmed romanizedQuery.length
     matchesTransliterationVariant namePrefix romanizedQuery 1.5 ||
       levenshteinDistance (jsToLower namePrefix) (jsToLower romanizedQuery) ≤ 1)) ||
  jsIncludes romanizedQuery nameTrimmed ||
  (o.fuzzy && fuzzyDistanceCheck nameTrimmed romanizedQuery o.maxDistance 0.4 0.4)

/-- Stage "query is English and name is Amharic" of `matchesName`
(lines 391-404): direct or fuzzy hit of a transliterated variant inside the
raw `name` argument. -/
def variantStage (rawName : String) (variants : List String) (o : MatchOptions) : Bool :=
  variants.any (fun variant =>
    jsIncludes rawName variant ||
      (o.fuzzy && decide ((levenshteinDistance rawName variant : ℚ) ≤ o.maxDistance)))

/-- Stage "exhaustive dictionary cross-check" of `matchesName`
(lines 407-437). -/
def dictionaryStage (commonNames : List (String × String))
    (rawName nameToCheck queryTrimmed : String) (o : MatchOptions) : Bool :=
  commonNames.any (fun p =>
    let english := p.1
    let amharic := p.2
    let englishLower := if o.caseSensitive then english else jsToLower english
    (jsIncludes nameToCheck englishLower && jsIncludes queryTrimmed amharic) ||
    (jsIncludes rawName amharic && jsIncludes queryTrimmed englishLower) ||
    (o.fuzzy &&
      (decide ((levenshteinDistance nameToCheck englishLower : ℚ) ≤ o.maxDistance) ||
       decide ((levenshteinDistance queryTrimmed amharic : ℚ) ≤ o.maxDistance))) ||
    (o.phonetic &&
      (isPhoneticallySimilar nameToCheck englishLower ||
       isPhoneticallySimilar queryTrimmed amharic)))

/-- Body of `matchesName` after the two validations: the decision cascade
over the raw `name` argument and the two sanitized strings. Each source
`return true` is a disjunct; the stages before the `transliterateToAmharic`
call are grouped as `earlyStages`. -/
def matchesNameCore (commonNames : List (String × String))
    (rawName sanitizedName sanitizedQuery : String) (o : MatchOptions) :
    Except ValidationError Bool :=
  if sanitizedQuery = "" then Except.ok false
  else
    let nameToCheck := if o.caseSensitive then sanitizedName else jsToLower sanitizedName
    let queryToCheck := if o.caseSensitive then sanitizedQuery else jsToLower sanitizedQuery
    let nameTrimmed := jsTrim nameToCheck
    let queryTrimmed := jsTrim queryToCheck
    if queryTrimmed = "" then Except.ok false
    else
      let hasAmharicInName := containsAmharic nameTrimmed
      let hasAmharicInQuery := containsAmharic queryTrimmed
      let romanizedName :=
        if hasAmharicInName then romanizeAmharicToAscii nameTrimmed else ""
      let romanizedQuery :=
        if hasAmharicInQuery then romanizeAmharicToAscii queryTrimmed else ""
      let earlyStages :=
        directStage nameTrimmed queryTrimmed o ||
        fuzzyStage nameTrimmed queryTrimmed o ||
        phoneticStage nameTrimmed queryTrimmed o ||
        (hasAmharicInName && !hasAmharicInQuery && romanizedName != "" &&
          romanizedNameStage romanizedName queryTrimmed o) ||
        (!hasAmharicInName && hasAmharicInQuery && romanizedQuery != "" &&
          romanizedQueryStage nameTrimmed romanizedQuery o)
      if earlyStages then Except.ok true
      else
        match transliterateToAmharic commonNames (JsVal.str queryTrimmed) true with
        | Except.error e => Except.error e
        | Except.ok amharicVariants =>
          if variantStage rawName amharicVariants o then Except.ok true
          else
            Except.ok (dictionaryStage commonNames rawName nameToCheck queryTrimmed o)

/-- Embeds `matchesName` from `transliteration.ts`: strict validation of
`name` (throws propagate), lenient validation of `query`, then the
decision cascade `matchesNameCore`. -/
def matchesName (commonNames : List (String × String)) (name query : JsVal)
    (o : MatchOptions) : Except ValidationError Bool :=
  match validateAndSanitizeInput name MAX_INPUT_LENGTH with
  | Except.error e => Except.error e
  | Except.ok sanitizedName =>
    match validateSearchQuery query with
    | Except.error e => Except.error e
    | Except.ok sanitizedQuery =>
      matchesNameCore commonNames name.rawStr sanitizedName sanitizedQuery o


def MAX_CACHE_SIZE : Nat := 1000

/-- The module-level `transliterationCache` (`Map<string, string[]>`), as an
insertion-ordered association list with unique keys. -/
structure TransCache where
  entries : List (String × List String)
deriving DecidableEq

/-- The cache right after module load or `clearCache()`. -/
def TransCache.empty : TransCache := { entries := [] }

/-- Models `getCached`: `transliterationCache.get(key)`. -/
def getCached (c : TransCache) (key : String) : Option (List String) :=
  (c.entries.find? (fun e => e.1 = key)).map (fun e => e.2)

/-- Models `setCache`: evict the first-inserted entry once the capacity is
reached, then `Map.set` (update in place when the key exists, else append).
This is FIFO eviction, not true LRU. -/
def setCache (c : TransCache) (key : String) (value : List String) : TransCache :=
  let es := if c.entries.length ≥ MAX_CACHE_SIZE then c.entries.tail else c.entries
  if es.any (fun e => e.1 = key) then
    { entries := es.map (fun e => if e.1 = key then (key, value) else e) }
  else
    { entries := es ++ [(key, value)] }

/-- The cache key `` `${lower}:${includePartialMatches}` ``. -/
def cacheKey (lower : String) (includePartialMatches : Bool) : String :=
  lower ++ ":" ++ (if includePartialMatches then "true" else "false")

/-- Embeds `transliterateToAmharic` from `transliteration.ts` with its cache
interaction made explicit: the module-level cache is passed in and the
possibly-updated cache is returned alongside the result. -/
def transliterateToAmharicCached (commonNames : List (String × String))
    (englishText : JsVal) (includePartialMatches enableCache : Bool)
    (cache : TransCache) :
    Except ValidationError (List String) × TransCache :=
  if isBlankStringInput englishText then (Except.ok [], cache)
  else
    match validateAndSanitizeInput englishText MAX_INPUT_LENGTH with
    | Except.error e => (Except.error e, cache)
    | Except.ok sanitized =>
      let lower := jsTrim (jsToLower sanitized)
      if lower = "" then (Except.ok [], cache)
      else
        let key := cacheKey lower includePartialMatches
        match if enableCache then getCached cache key else none with
        | some cached => (Except.ok cached, cache)
        | none =>
          let resultArray := computeVariants commonNames lower includePartialMatches
          if enableCache then (Except.ok resultArray, setCache cache key resultArray)
          else (Except.ok resultArray, cache)

/-- Written from the spec's words for the substitution cost of
`transliterationAwareDistance` (§4.3): `0` if the characters are equal,
`0.3` when both are vowels (a/e/i/u/o, any pairing), `0.5` when the pair
`{c1, c2}` is `{s, z}` or `{t, d}`, and `1` otherwise. -/
def specSubCost (c1 c2 : Char) : ℚ :=
  if c1 = c2 then 0
  else if isVowelChar c1 && isVowelChar c2 then 0.3
  else if (c1 = 's' ∧ c2 = 'z') ∨ (c1 = 'z' ∧ c2 = 's') ∨
          (c1 = 't' ∧ c2 = 'd') ∨ (c1 = 'd' ∧ c2 = 't') then 0.5
  else 1

/-- Written from the spec's words for C7: the value of the Levenshtein
dynamic program over the lowercased strings, with insertion and deletion
cost 1 and substitution cost `specSubCost`. -/
def tadSpecDistance (a b : String) : ℚ :=
  editRec specSubCost (jsToLower a).data (jsToLower b).data

mutual
/-- Every Amharic variant stored anywhere in the trie satisfies `P`. -/
def NameTrie.VarsIn (P : String → Prop) : NameTrie → Prop
  | NameTrie.node ch vars _ => (∀ v ∈ vars, P v) ∧ TrieChildren.VarsIn P ch
def TrieChildren.VarsIn (P : String → Prop) : TrieChildren → Prop
  | TrieChildren.nil => True
  | TrieChildren.cons _ t rest => NameTrie.VarsIn P t ∧ TrieChildren.VarsIn P rest
end

/-- A cache state is valid when every entry whose key decodes as
`cacheKey lower flag` stores exactly the variants the trie computes for
that key. Every cache state reachable by the program is valid. -/
def CacheValid (commonNames : List (String × String)) (c : TransCache) : Prop :=
  ∀ e ∈ c.entries, ∀ lower flag, e.1 = cacheKey lower flag →
    e.2 = computeVariants commonNames lower flag

/-- All characters are 7-bit ASCII. -/
def AsciiString (s : String) : Prop := ∀ c ∈ s.data, c.toNat < 128

/-- Every dictionary value is a non-empty string of Ethiopic-block
characters (true of the real `COMMON_NAMES` data). -/
def EthiopicValues (commonNames : List (String × String)) : Prop :=
  ∀ p ∈ commonNames, p.2.data ≠ [] ∧ ∀ c ∈ p.2.data, 0x1200 ≤ c.toNat

theorem editRec_nil_left {a : Type} [Min a] [Add a] [One a] [NatCast a]
    (cost : Char → Char → a) (t : List Char) :
    editRec cost [] t = (t.length : a) := by
  cases t <;> simp [editRec]

theorem editRec_nil_right {a : Type} [Min a] [Add a] [One a] [NatCast a]
    (cost : Char → Char → a) (s : List Char) :
    editRec cost s [] = (s.length : a) := by
  cases s <;> simp [editRec]

theorem editRowStep_tails {a : Type} [Min a] [AddMonoidWithOne a]
    (cost : Char → Char → a) (c1 : Char) (s : List Char) :
    ∀ t : List Char,
      editRowStep cost c1 t (t.tails.map (fun u => editRec cost s u)) =
        t.tails.map (fun u => editRec cost (c1 :: s) u)
  | [] => by
    simp [editRowStep, editRec_nil_right, editRec]
  | c2 :: t => by
    have ih := editRowStep_tails cost c1 s t
    simp only [List.tails_cons, List.map_cons, editRowStep, List.tail_cons, ih]
    cases t <;> simp [editRec, editRec_nil_right]

theorem editDP_tails {a : Type} [Min a] [AddMonoidWithOne a]
    (cost : Char → Char → a) (t : List Char) :
    ∀ s : List Char,
      s.foldr (fun c row => editRowStep cost c t row) (editRowInit t) =
        t.tails.map (fun u => editRec cost s u)
  | [] => by
    simp only [List.foldr_nil, editRowInit]
    exact List.map_congr_left (fun u _ => (editRec_nil_left cost u).symm)
  | c :: s => by
    simp only [List.foldr_cons, editDP_tails cost t s, editRowStep_tails]

theorem editDP_eq_editRec {a : Type} [Min a] [AddMonoidWithOne a]
    (cost : Char → Char → a) (s t : List Char) :
    editDP cost s t = editRec cost s t := by
  unfold editDP
  rw [editDP_tails]
  cases t <;> simp [List.tails_cons]

theorem editRec_nonneg (cost : Char → Char → ℚ) (h : ∀ c d, 0 ≤ cost c d) :
    ∀ s t : List Char, 0 ≤ editRec cost s t
  | [], t => by simp [editRec_nil_left]
  | c1 :: s, [] => by
    simp only [editRec_nil_right]
    positivity
  | c1 :: s, c2 :: t => by
    have h1 := editRec_nonneg cost h s (c2 :: t)
    have h2 := editRec_nonneg cost h (c1 :: s) t
    have h3 := editRec_nonneg cost h s t
    rw [editRec]
    exact le_min (by linarith) (le_min (by linarith) (add_nonneg h3 (h c1 c2)))

theorem editRec_self_le_zero (cost : Char → Char → ℚ) (h : ∀ c, cost c c = 0) :
    ∀ l : List Char, editRec cost l l ≤ 0
  | [] => by simp [editRec_nil_left]
  | c :: l => by
    rw [editRec]
    refine le_trans (le_trans (min_le_right _ _) (min_le_right _ _)) ?_
    rw [h c]
    simpa using editRec_self_le_zero cost h l

theorem editRec_self (cost : Char → Char → ℚ) (h0 : ∀ c, cost c c = 0)
    (hpos : ∀ c d, 0 ≤ cost c d) (l : List Char) : editRec cost l l = 0 :=
  le_antisymm (editRec_self_le_zero cost h0 l) (editRec_nonneg cost hpos l l)

theorem editRec_congr_cost (cost cost' : Char → Char → ℚ)
    (h : ∀ c d, cost c d = cost' c d) :
    ∀ s t : List Char, editRec cost s t = editRec cost' s t
  | [], t => by simp [editRec_nil_left]
  | c1 :: s, [] => by simp [editRec_nil_right]
  | c1 :: s, c2 :: t => by
    rw [editRec, editRec, editRec_congr_cost cost cost' h s (c2 :: t),
      editRec_congr_cost cost cost' h (c1 :: s) t,
      editRec_congr_cost cost cost' h s t, h c1 c2]

theorem editRec_no_common :
    ∀ s t : List Char, (∀ c ∈ s, ∀ d ∈ t, c ≠ d) →
      editRec levSubCost s t = max s.length t.length
  | [], t => fun _ => by simp [editRec_nil_left]
  | c1 :: s, [] => fun _ => by simp [editRec_nil_right]
  | c1 :: s, c2 :: t => fun h => by
    have h1 := editRec_no_common s (c2 :: t)
      (fun c hc d hd => h c (List.mem_cons_of_mem _ hc) d hd)
    have h2 := editRec_no_common (c1 :: s) t
      (fun c hc d hd => h c hc d (List.mem_cons_of_mem _ hd))
    have h3 := editRec_no_common s t
      (fun c hc d hd => h c (List.mem_cons_of_mem _ hc) d (List.mem_cons_of_mem _ hd))
    have hne : c1 ≠ c2 := h c1 (List.mem_cons_self _ _) c2 (List.mem_cons_self _ _)
    rw [editRec, h1, h2, h3]
    simp only [levSubCost, if_neg hne, List.length_cons]
    omega

theorem tadSubCost_nonneg (c1 c2 : Char) : 0 ≤ tadSubCost c1 c2 := by
  unfold tadSubCost
  split_ifs <;> norm_num

theorem tadSubCost_self (c : Char) : tadSubCost c c = 0 := by
  simp [tadSubCost]

theorem consonantVariantHas_iff (c1 c2 : Char) :
    (consonantVariantHas c1 c2 || consonantVariantHas c2 c1) = true ↔
      (c1 = 's' ∧ c2 = 'z') ∨ (c1 = 'z' ∧ c2 = 's') ∨
      (c1 = 't' ∧ c2 = 'd') ∨ (c1 = 'd' ∧ c2 = 't') := by
  simp only [consonantVariantHas, Bool.or_eq_true, Bool.and_eq_true, decide_eq_true_eq]
  tauto

theorem tadSubCost_eq_specSubCost (c1 c2 : Char) :
    tadSubCost c1 c2 = specSubCost c1 c2 := by
  unfold tadSubCost specSubCost
  by_cases h : c1 = c2
  · simp [h]
  · simp only [h, if_false]
    by_cases hv : (isVowelChar c1 && isVowelChar c2) = true
    · simp [hv]
    · simp only [hv, if_false]
      by_cases hc : (consonantVariantHas c1 c2 || consonantVariantHas c2 c1) = true
      · rw [if_pos hc, if_pos ((consonantVariantHas_iff c1 c2).mp hc)]
      · rw [if_neg hc, if_neg (fun hp => hc ((consonantVariantHas_iff c1 c2).mpr hp))]


theorem specSubCost_self (c : Char) : specSubCost c c = 0 := by
  simp [specSubCost]

theorem specSubCost_nonneg (c1 c2 : Char) : 0 ≤ specSubCost c1 c2 := by
  unfold specSubCost
  split_ifs <;> norm_num

theorem jsToLower_data (s : String) : (jsToLower s).data = s.data.map toLowerChar := rfl

theorem string_length_data (s : String) : s.length = s.data.length := rfl

theorem jsToLower_length (s : String) : (jsToLower s).length = s.length := by
  rw [string_length_data, string_length_data, jsToLower_data, List.length_map]

/-- C7: for all strings `a` and `b`, `transliterationAwareDistance(a, b)`
equals the Levenshtein dynamic program over the lowercased strings in which
insertion and deletion cost 1 and substitution of `c1, c2` costs 0 when
`c1 = c2`, 0.3 when both are vowels (a/e/i/u/o), 0.5 when `{c1, c2}` is
`{s, z}` or `{t, d}`, and 1 otherwise. -/
theorem c7_transliteration_aware_distance_matches_spec (a b : String) :
    transliterationAwareDistance a b = tadSpecDistance a b := by
  unfold transliterationAwareDistance tadSpecDistance
  by_cases h1 : a = ""
  · subst h1
    rw [if_pos (by simp)]
    rw [show (jsToLower "").data = [] from rfl, editRec_nil_left, jsToLower_data,
      List.length_map, string_length_data, string_length_data]
    rw [show ("" : String).data = [] from rfl]
    simp
  · by_cases h2 : b = ""
    · subst h2
      rw [if_pos (by simp)]
      rw [show (jsToLower "").data = [] from rfl, editRec_nil_right, jsToLower_data,
        List.length_map, string_length_data, string_length_data]
      rw [show ("" : String).data = [] from rfl]
      simp
    · rw [if_neg (by simp [h1, h2])]
      by_cases heq : jsToLower a = jsToLower b
      · rw [if_pos heq, heq, editRec_self specSubCost specSubCost_self specSubCost_nonneg]
      · rw [if_neg heq, editDP_eq_editRec,
          editRec_congr_cost tadSubCost specSubCost tadSubCost_eq_specSubCost]

theorem mem_setAddStr (l : List String) (x v : String) :
    v ∈ setAddStr l x ↔ v ∈ l ∨ v = x := by
  unfold setAddStr
  split_ifs with h
  · rw [List.elem_iff] at h
    constructor
    · exact Or.inl
    · rintro (hv | rfl)
      · exact hv
      · exact h
  · simp

theorem mem_foldl_setAddStr (l : List String) :
    ∀ (acc : List String) (v : String),
      v ∈ l.foldl setAddStr acc ↔ v ∈ acc ∨ v ∈ l := by
  induction l with
  | nil => intro acc v; simp
  | cons x xs ih =>
    intro acc v
    rw [List.foldl_cons, ih, mem_setAddStr]
    constructor
    · rintro ((hv | rfl) | hv)
      · exact Or.inl hv
      · exact Or.inr (List.mem_cons_self _ _)
      · exact Or.inr (List.mem_cons_of_mem _ hv)
    · rintro (hv | hv)
      · exact Or.inl (Or.inl hv)
      · rcases List.mem_cons.mp hv with rfl | hv
        · exact Or.inl (Or.inr rfl)
        · exact Or.inr hv

theorem mem_foldl_unions {b : Type} (f : b → List String) (l : List b) :
    ∀ (acc : List String) (v : String),
      v ∈ l.foldl (fun res i => (f i).foldl setAddStr res) acc ↔
        v ∈ acc ∨ ∃ i ∈ l, v ∈ f i := by
  induction l with
  | nil => intro acc v; simp
  | cons x xs ih =>
    intro acc v
    rw [List.foldl_cons, ih, mem_foldl_setAddStr]
    constructor
    · rintro ((hv | hv) | ⟨i, hi, hv⟩)
      · exact Or.inl hv
      · exact Or.inr ⟨x, List.mem_cons_self _ _, hv⟩
      · exact Or.inr ⟨i, List.mem_cons_of_mem _ hi, hv⟩
    · rintro (hv | ⟨i, hi, hv⟩)
      · exact Or.inl (Or.inl hv)
      · rcases List.mem_cons.mp hi with rfl | hi
        · exact Or.inl (Or.inr hv)
        · exact Or.inr ⟨i, hi, hv⟩

/-- C8: for every trie and query string, the set returned by
`searchContains(q)` is exactly the union, over every starting offset `i`
of the lowercased `q`, of the results of `searchPrefix` on the suffix of
the lowercased `q` starting at `i` — a prefix search anchored at each
query offset, not a general substring search over the dictionary keys. -/
theorem c8_searchContains_is_union_of_suffix_prefix_searches
    (t : NameTrie) (q : String) (v : String) :
    v ∈ NameTrie.searchContains t q ↔
      ∃ i < (jsToLower q).data.length,
        v ∈ NameTrie.searchPrefix t (String.mk ((jsToLower q).data.drop i)) := by
  unfold NameTrie.searchContains
  rw [mem_foldl_unions]
  simp [List.mem_range]

mutual
theorem NameTrie.mem_collectVariants_of_mem (v : String) :
    ∀ (t : NameTrie) (acc : List String), v ∈ acc → v ∈ NameTrie.collectVariants t acc
  | NameTrie.node ch vars _, acc, h =>
    TrieChildren.mem_collectChildren_of_mem v ch (vars.foldl setAddStr acc)
      ((mem_foldl_setAddStr vars acc v).mpr (Or.inl h))
theorem TrieChildren.mem_collectChildren_of_mem (v : String) :
    ∀ (ch : TrieChildren) (acc : List String), v ∈ acc → v ∈ TrieChildren.collectVariants ch acc
  | TrieChildren.nil, _, h => h
  | TrieChildren.cons _ t rest, acc, h =>
    TrieChildren.mem_collectChildren_of_mem v rest (NameTrie.collectVariants t acc)
      (NameTrie.mem_collectVariants_of_mem v t acc h)
end

theorem mem_collectVariants_of_mem_vars {v : String} {ch : TrieChildren}
    {vars : List String} {e : Bool} (h : v ∈ vars) (acc : List String) :
    v ∈ NameTrie.collectVariants (NameTrie.node ch vars e) acc := by
  show v ∈ TrieChildren.collectVariants ch (vars.foldl setAddStr acc)
  exact TrieChildren.mem_collectChildren_of_mem v ch _
    ((mem_foldl_setAddStr vars acc v).mpr (Or.inr h))

/-- C10: for every trie and query, every string returned by
`searchExact(q)` is also returned by `searchPrefix(q)`: the exact search
reads off the terminal node's variants, which the prefix search's
subtree collection also visits first. -/
theorem c10_searchExact_subset_searchPrefix (t : NameTrie) (q v : String)
    (h : v ∈ NameTrie.searchExact t q) : v ∈ NameTrie.searchPrefix t q := by
  unfold NameTrie.searchExact at h
  unfold NameTrie.searchPrefix
  cases hw : NameTrie.walk t (jsToLower q).data with
  | none => rw [hw] at h; simp at h
  | some n =>
    rw [hw] at h
    cases n with
    | node ch vars e =>
      by_cases he : e = true
      · rw [he] at h
        simp only [if_true] at h
        exact mem_collectVariants_of_mem_vars h []
      · rw [eq_false_of_ne_true he] at h
        simp at h

/-- Witness for C10 at a concrete trie: inserting `"ab" ↦ "X"` into the
empty trie, `searchExact "ab"` returns `"X"`, and the theorem places it in
`searchPrefix "ab"` as well. -/
theorem c10_witness :
    "X" ∈ NameTrie.searchExact (NameTrie.insert NameTrie.emptyNode "ab" "X") "ab" ∧
    "X" ∈ NameTrie.searchPrefix (NameTrie.insert NameTrie.emptyNode "ab" "X") "ab" :=
  ⟨by decide,
   c10_searchExact_subset_searchPrefix (NameTrie.insert NameTrie.emptyNode "ab" "X")
     "ab" "X" (by decide)⟩

/-- C3: for every `(english, amharic)` pair in the (spec-modelled)
dictionary `COMMON_NAMES`, `matchesName(amharic, english)` and
`matchesName(english, amharic)` both return true under default options. -/
theorem c3_dictionary_bidirectional :
    ∀ p ∈ COMMON_NAMES,
      matchesName COMMON_NAMES (JsVal.str p.2) (JsVal.str p.1) {} = Except.ok true ∧
      matchesName COMMON_NAMES (JsVal.str p.1) (JsVal.str p.2) {} = Except.ok true := by
  with_unfolding_all decide

/-- Witness for C3 at the dictionary pair `("amanuel", "አማኑኤል")`. -/
theorem c3_witness :
    ("amanuel", "አማኑኤል") ∈ COMMON_NAMES ∧
    (matchesName COMMON_NAMES (JsVal.str "አማኑኤል") (JsVal.str "amanuel") {} = Except.ok true ∧
     matchesName COMMON_NAMES (JsVal.str "amanuel") (JsVal.str "አማኑኤል") {} = Except.ok true) :=
  ⟨by decide, c3_dictionary_bidirectional ("amanuel", "አማኑኤል") (by decide)⟩

theorem string_eq_empty_iff_data (s : String) : s = "" ↔ s.data = [] := by
  constructor
  · intro h; rw [h]
  · intro h
    cases s with
    | mk data =>
      have hd : data = [] := h
      rw [hd]

theorem jsTrim_empty : jsTrim "" = "" := rfl

theorem length_ne_zero_of_jsTrim_ne_empty {s : String} (h : jsTrim s ≠ "") :
    ¬ s.length = 0 := by
  intro hlen
  apply h
  rw [string_length_data] at hlen
  have hs : s = "" := (string_eq_empty_iff_data s).mpr (List.length_eq_zero.mp hlen)
  rw [hs]
  exact jsTrim_empty

/-- C2 counterexample: the validator rejects the empty string, yet
`transliterateToAmharic("")` returns `[]` instead of raising — the
blank-input early return runs before validation. -/
theorem c2_counterexample :
    transliterateToAmharic COMMON_NAMES (JsVal.str "") true = Except.ok [] ∧
    validateAndSanitizeInput (JsVal.str "") MAX_INPUT_LENGTH =
      Except.error (mkValidationError "INPUT_EMPTY") := by
  decide

/-- C2 (amended): `transliterateToAmharic` fails with a `ValidationError`
for non-string input, for over-long input, and for input stripped to
empty by control-character removal; but empty or whitespace-only string
input returns `[]` without raising. -/
theorem c2_validation_failure_cases (flag : Bool) :
    (∀ v : JsVal, (∀ s, v ≠ JsVal.str s) →
       transliterateToAmharic COMMON_NAMES v flag =
         Except.error (mkValidationError "INVALID_INPUT_TYPE")) ∧
    (∀ s : String, jsTrim s ≠ "" → s.length > MAX_INPUT_LENGTH →
       transliterateToAmharic COMMON_NAMES (JsVal.str s) flag =
         Except.error (mkValidationError "INPUT_TOO_LONG")) ∧
    (∀ s : String, jsTrim s ≠ "" → s.length ≤ MAX_INPUT_LENGTH →
       jsTrim (stripControl s) = "" →
       transliterateToAmharic COMMON_NAMES (JsVal.str s) flag =
         Except.error (mkValidationError "INVALID_CHARACTERS")) ∧
    (∀ s : String, jsTrim s = "" →
       transliterateToAmharic COMMON_NAMES (JsVal.str s) flag = Except.ok []) := by
  refine ⟨?_, ?_, ?_, ?_⟩
  · intro v hv
    cases v with
    | str s => exact absurd rfl (hv s)
    | nullish => rfl
    | other => rfl
  · intro s hts hlen
    unfold transliterateToAmharic
    rw [if_neg (by simpa [isBlankStringInput] using hts)]
    simp only [validateAndSanitizeInput]
    rw [if_neg (length_ne_zero_of_jsTrim_ne_empty hts), if_pos hlen]
  · intro s hts hle hstrip
    unfold transliterateToAmharic
    rw [if_neg (by simpa [isBlankStringInput] using hts)]
    simp only [validateAndSanitizeInput]
    rw [if_neg (length_ne_zero_of_jsTrim_ne_empty hts), if_neg (by omega)]
    simp only [hstrip]
    rfl
  · intro s hts
    unfold transliterateToAmharic
    rw [if_pos (by simpa [isBlankStringInput] using hts)]

/-- Witness for C2's amended statement at concrete inputs: a non-string
value, a 1001-character string, the control-character string `"\x00"`,
and the empty string. -/
theorem c2_validation_failure_cases_witness :
    transliterateToAmharic COMMON_NAMES JsVal.other true =
      Except.error (mkValidationError "INVALID_INPUT_TYPE") ∧
    transliterateToAmharic COMMON_NAMES (JsVal.str (String.mk (List.replicate 1001 'a'))) true =
      Except.error (mkValidationError "INPUT_TOO_LONG") ∧
    transliterateToAmharic COMMON_NAMES (JsVal.str "\x00") true =
      Except.error (mkValidationError "INVALID_CHARACTERS") ∧
    transliterateToAmharic COMMON_NAMES (JsVal.str "") true = Except.ok [] := by
  obtain ⟨h1, h2, h3, h4⟩ := c2_validation_failure_cases true
  exact ⟨h1 JsVal.other (fun s h => JsVal.noConfusion h),
    h2 (String.mk (List.replicate 1001 'a')) (by decide) (by decide),
    h3 "\x00" (by decide) (by decide) (by decide),
    h4 "" rfl⟩

/-- C4: the claim describes the intended lenient query validation, but the
code cannot deliver it: `validateSearchQuery` tests `error.code ===
'INVALID_CHARACTERS'` while the `ValidationError` constructor always sets
`code` to `'VALIDATION_ERROR'` (the specific code lands in `cause`), so
the downgrade never fires and a bad-character query throws out of
`matchesName` instead of returning false. -/
theorem c4_invalid_characters_query_throws :
    matchesName COMMON_NAMES (JsVal.str "Amanuel") (JsVal.str "\x00") {} =
      Except.error { code := "VALIDATION_ERROR", cause := "INVALID_CHARACTERS" } ∧
    (mkValidationError "INVALID_CHARACTERS").code ≠ "INVALID_CHARACTERS" := by
  decide

theorem matchesNameCore_whole_word_eq (cn : List (String × String))
    (raw sn sq : String) (o : MatchOptions) (hww : o.wholeWord = true)
    (hsq : sq ≠ "")
    (hqt : jsTrim (if o.caseSensitive then sq else jsToLower sq) ≠ "")
    (heq : jsTrim (if o.caseSensitive then sn else jsToLower sn) =
           jsTrim (if o.caseSensitive then sq else jsToLower sq)) :
    matchesNameCore cn raw sn sq o = Except.ok true := by
  simp only [matchesNameCore]
  rw [if_neg hsq, if_neg hqt]
  have hdir : directStage (jsTrim (if o.caseSensitive then sn else jsToLower sn))
      (jsTrim (if o.caseSensitive then sq else jsToLower sq)) o = true := by
    unfold directStage
    rw [hww]
    simp [heq]
  rw [if_pos (by simp [hdir])]

/-- C1 counterexample: with `wholeWord:true`, `matchesName('አማኑኤል',
'amanuel')` returns true even though the case-folded trimmed forms of name
and query differ — the later romanization stage still runs, so whole-word
inequality does not force a false result. -/
theorem c1_counterexample :
    matchesName COMMON_NAMES (JsVal.str "አማኑኤል") (JsVal.str "amanuel")
      { wholeWord := true } = Except.ok true ∧
    jsTrim (jsToLower "አማኑኤል") ≠ jsTrim (jsToLower "amanuel") := by
  with_unfolding_all decide

/-- C1 (amended): with `wholeWord:true`, `matchesName` returns true
whenever the case-folded (unless `caseSensitive`) trimmed forms of the
sanitized name and query are equal; when they are unequal only the
containment and same-script-variant checks are skipped — the fuzzy,
phonetic, romanization and dictionary stages still run and may return
true (see the counterexample). -/
theorem c1_whole_word_equal_returns_true (cn : List (String × String))
    (a b sn sq : String) (o : MatchOptions) (hww : o.wholeWord = true)
    (hn : validateAndSanitizeInput (JsVal.str a) MAX_INPUT_LENGTH = Except.ok sn)
    (hq : validateSearchQuery (JsVal.str b) = Except.ok sq)
    (hsq : sq ≠ "")
    (hqt : jsTrim (if o.caseSensitive then sq else jsToLower sq) ≠ "")
    (heq : jsTrim (if o.caseSensitive then sn else jsToLower sn) =
           jsTrim (if o.caseSensitive then sq else jsToLower sq)) :
    matchesName cn (JsVal.str a) (JsVal.str b) o = Except.ok true := by
  unfold matchesName
  simp only [hn, hq, JsVal.rawStr]
  exact matchesNameCore_whole_word_eq cn a sn sq o hww hsq hqt heq

/-- Witness for C1's amended statement: `matchesName("Selam", "selam",
{wholeWord:true})` returns true. -/
theorem c1_whole_word_witness :
    validateAndSanitizeInput (JsVal.str "Selam") MAX_INPUT_LENGTH = Except.ok "Selam" ∧
    matchesName COMMON_NAMES (JsVal.str "Selam") (JsVal.str "selam")
      { wholeWord := true } = Except.ok true :=
  ⟨by decide,
   c1_whole_word_equal_returns_true COMMON_NAMES "Selam" "selam" "Selam" "selam"
     { wholeWord := true } rfl (by decide) (by decide) (by decide) (by decide) (by decide)⟩

theorem rat_decide_le_mono {x d d' : ℚ} (hdd : d ≤ d') (h : decide (x ≤ d) = true) :
    decide (x ≤ d') = true := by
  simp only [decide_eq_true_eq] at h ⊢
  exact le_trans h hdd

theorem directStage_proj (n q : String) (o : MatchOptions) (d d' : ℚ) :
    directStage n q { o with maxDistance := d } =
      directStage n q { o with maxDistance := d' } := rfl

theorem phoneticStage_proj (n q : String) (o : MatchOptions) (d d' : ℚ) :
    phoneticStage n q { o with maxDistance := d } =
      phoneticStage n q { o with maxDistance := d' } := rfl

theorem fuzzyDistanceCheck_mono (a b : String) (d d' nd r : ℚ) (hdd : d ≤ d')
    (h : fuzzyDistanceCheck a b d nd r = true) : fuzzyDistanceCheck a b d' nd r = true := by
  simp only [fuzzyDistanceCheck, Bool.and_eq_true] at h ⊢
  obtain ⟨h1, ⟨⟨h2, h3⟩, h4⟩⟩ := h
  exact ⟨h1, ⟨rat_decide_le_mono hdd h2, h3⟩, h4⟩

theorem fuzzyStage_mono (n q : String) (o : MatchOptions) (d d' : ℚ) (hdd : d ≤ d')
    (h : fuzzyStage n q { o with maxDistance := d } = true) :
    fuzzyStage n q { o with maxDistance := d' } = true := by
  simp only [fuzzyStage, Bool.and_eq_true] at h ⊢
  obtain ⟨hf, ⟨⟨h1, h2⟩, ⟨⟨h3, h4⟩, h5⟩⟩⟩ := h
  exact ⟨hf, ⟨rat_decide_le_mono hdd h1, h2⟩,
    ⟨rat_decide_le_mono hdd h3, h4⟩, h5⟩

theorem romanizedNameStage_mono (rn q : String) (o : MatchOptions) (d d' : ℚ)
    (hdd : d ≤ d') (h : romanizedNameStage rn q { o with maxDistance := d } = true) :
    romanizedNameStage rn q { o with maxDistance := d' } = true := by
  simp only [romanizedNameStage, Bool.or_eq_true, Bool.and_eq_true] at h ⊢
  rcases h with (((h1 | h2) | h3) | h4) | ⟨hf, h5⟩
  · exact Or.inl (Or.inl (Or.inl (Or.inl h1)))
  · exact Or.inl (Or.inl (Or.inl (Or.inr h2)))
  · exact Or.inl (Or.inl (Or.inr h3))
  · exact Or.inl (Or.inr h4)
  · exact Or.inr ⟨hf, fuzzyDistanceCheck_mono _ _ _ _ _ _ hdd h5⟩

theorem romanizedQueryStage_mono (n rq : String) (o : MatchOptions) (d d' : ℚ)
    (hdd : d ≤ d') (h : romanizedQueryStage n rq { o with maxDistance := d } = true) :
    romanizedQueryStage n rq { o with maxDistance := d' } = true := by
  simp only [romanizedQueryStage, Bool.or_eq_true, Bool.and_eq_true] at h ⊢
  rcases h with ((((h1 | h2) | h3) | h4) | h5) | ⟨hf, h6⟩
  · exact Or.inl (Or.inl (Or.inl (Or.inl (Or.inl h1))))
  · exact Or.inl (Or.inl (Or.inl (Or.inl (Or.inr h2))))
  · exact Or.inl (Or.inl (Or.inl (Or.inr h3)))
  · exact Or.inl (Or.inl (Or.inr h4))
  · exact Or.inl (Or.inr h5)
  · exact Or.inr ⟨hf, fuzzyDistanceCheck_mono _ _ _ _ _ _ hdd h6⟩

theorem variantStage_mono (raw : String) (vs : List String) (o : MatchOptions)
    (d d' : ℚ) (hdd : d ≤ d')
    (h : variantStage raw vs { o with maxDistance := d } = true) :
    variantStage raw vs { o with maxDistance := d' } = true := by
  simp only [variantStage, List.any_eq_true, Bool.or_eq_true, Bool.and_eq_true] at h ⊢
  obtain ⟨v, hv, hd⟩ := h
  rcases hd with h1 | ⟨hf, h2⟩
  · exact ⟨v, hv, Or.inl h1⟩
  · exact ⟨v, hv, Or.inr ⟨hf, rat_decide_le_mono hdd h2⟩⟩

theorem dictionaryStage_mono (cn : List (String × String))
    (raw ntc qt : String) (o : MatchOptions) (d d' : ℚ) (hdd : d ≤ d')
    (h : dictionaryStage cn raw ntc qt { o with maxDistance := d } = true) :
    dictionaryStage cn raw ntc qt { o with maxDistance := d' } = true := by
  simp only [dictionaryStage, List.any_eq_true, Bool.or_eq_true, Bool.and_eq_true] at h ⊢
  obtain ⟨p, hp, hd⟩ := h
  rcases hd with ((h1 | h2) | ⟨hf, h3 | h4⟩) | hph
  · exact ⟨p, hp, Or.inl (Or.inl (Or.inl h1))⟩
  · exact ⟨p, hp, Or.inl (Or.inl (Or.inr h2))⟩
  · exact ⟨p, hp, Or.inl (Or.inr ⟨hf, Or.inl (rat_decide_le_mono hdd h3)⟩)⟩
  · exact ⟨p, hp, Or.inl (Or.inr ⟨hf, Or.inr (rat_decide_le_mono hdd h4)⟩)⟩
  · exact ⟨p, hp, Or.inr hph⟩

theorem matchesNameCore_mono (cn : List (String × String)) (raw sn sq : String)
    (o : MatchOptions) (d d' : ℚ) (hdd : d ≤ d')
    (h : matchesNameCore cn raw sn sq { o with maxDistance := d } = Except.ok true) :
    matchesNameCore cn raw sn sq { o with maxDistance := d' } = Except.ok true := by
  simp only [matchesNameCore] at h ⊢
  by_cases hsq : sq = ""
  · rw [if_pos hsq] at h
    exact absurd h (by simp)
  · rw [if_neg hsq] at h ⊢
    by_cases hqt : jsTrim (if o.caseSensitive then sq else jsToLower sq) = ""
    · rw [if_pos hqt] at h
      exact absurd h (by simp)
    · rw [if_neg hqt] at h ⊢
      set nt := jsTrim (if o.caseSensitive = true then sn else jsToLower sn) with hnt
      set qt := jsTrim (if o.caseSensitive = true then sq else jsToLower sq) with hqtdef
      set rn := (if containsAmharic nt = true then romanizeAmharicToAscii nt else "") with hrn
      set rq := (if containsAmharic qt = true then romanizeAmharicToAscii qt else "") with hrq
      by_cases he :
          (directStage nt qt { o with maxDistance := d } ||
           fuzzyStage nt qt { o with maxDistance := d } ||
           phoneticStage nt qt { o with maxDistance := d } ||
           (containsAmharic nt && !containsAmharic qt && rn != "" &&
             romanizedNameStage rn qt { o with maxDistance := d }) ||
           (!containsAmharic nt && containsAmharic qt && rq != "" &&
             romanizedQueryStage nt rq { o with maxDistance := d })) = true
      · have he' :
            (directStage nt qt { o with maxDistance := d' } ||
             fuzzyStage nt qt { o with maxDistance := d' } ||
             phoneticStage nt qt { o with maxDistance := d' } ||
             (containsAmharic nt && !containsAmharic qt && rn != "" &&
               romanizedNameStage rn qt { o with maxDistance := d' }) ||
             (!containsAmharic nt && containsAmharic qt && rq != "" &&
               romanizedQueryStage nt rq { o with maxDistance := d' })) = true := by
          simp only [Bool.or_eq_true, Bool.and_eq_true] at he ⊢
          rcases he with (((hA | hB) | hC) | ⟨⟨⟨g1, g2⟩, g3⟩, g4⟩) | ⟨⟨⟨g1, g2⟩, g3⟩, g4⟩
          · rw [directStage_proj nt qt o d d'] at hA
            exact Or.inl (Or.inl (Or.inl (Or.inl hA)))
          · exact Or.inl (Or.inl (Or.inl (Or.inr (fuzzyStage_mono nt qt o d d' hdd hB))))
          · rw [phoneticStage_proj nt qt o d d'] at hC
            exact Or.inl (Or.inl (Or.inr hC))
          · exact Or.inl (Or.inr ⟨⟨⟨g1, g2⟩, g3⟩,
              romanizedNameStage_mono rn qt o d d' hdd g4⟩)
          · exact Or.inr ⟨⟨⟨g1, g2⟩, g3⟩,
              romanizedQueryStage_mono nt rq o d d' hdd g4⟩
        rw [if_pos he']
      · rw [if_neg he] at h
        by_cases he' :
            (directStage nt qt { o with maxDistance := d' } ||
             fuzzyStage nt qt { o with maxDistance := d' } ||
             phoneticStage nt qt { o with maxDistance := d' } ||
             (containsAmharic nt && !containsAmharic qt && rn != "" &&
               romanizedNameStage rn qt { o with maxDistance := d' }) ||
             (!containsAmharic nt && containsAmharic qt && rq != "" &&
               romanizedQueryStage nt rq { o with maxDistance := d' })) = true
        · rw [if_pos he']
        · rw [if_neg he']
          cases hT : transliterateToAmharic cn (JsVal.str qt) true with
          | error e =>
            rw [hT] at h
            exact absurd h (by simp)
          | ok vars =>
            rw [hT] at h
            dsimp only at h ⊢
            by_cases hv : variantStage raw vars { o with maxDistance := d } = true
            · rw [if_pos (variantStage_mono raw vars o d d' hdd hv)]
            · rw [if_neg hv] at h
              have hdict : dictionaryStage cn raw (if o.caseSensitive then sn else jsToLower sn)
                  qt { o with maxDistance := d } = true := by
                simpa using h
              have hdict' := dictionaryStage_mono cn raw
                (if o.caseSensitive then sn else jsToLower sn) qt o d d' hdd hdict
              by_cases hv' : variantStage raw vars { o with maxDistance := d' } = true
              · rw [if_pos hv']
              · rw [if_neg hv']
                rw [hdict']

theorem matchesName_mono_maxDistance (cn : List (String × String))
    (name query : JsVal) (o : MatchOptions) (d d' : ℚ) (hdd : d ≤ d')
    (h : matchesName cn name query { o with maxDistance := d } = Except.ok true) :
    matchesName cn name query { o with maxDistance := d' } = Except.ok true := by
  unfold matchesName at h ⊢
  cases hn : validateAndSanitizeInput name MAX_INPUT_LENGTH with
  | error e =>
    rw [hn] at h
    exact absurd h (by simp)
  | ok sn =>
    rw [hn] at h
    dsimp only at h ⊢
    cases hq : validateSearchQuery query with
    | error e =>
      rw [hq] at h
      dsimp only at h
      exact absurd h (by simp)
    | ok sq =>
      rw [hq] at h
      dsimp only at h ⊢
      exact matchesNameCore_mono cn name.rawStr sn sq o d d' hdd h

/-- C5: monotonicity in `maxDistance` — if `matchesName(a, b,
{fuzzy:true, maxDistance:d, ...})` returns true, then for every `d' > d`
with the same other options `matchesName(a, b, {fuzzy:true,
maxDistance:d', ...})` also returns true: every use of `maxDistance` in
the cascade is an upper-bound test on a distance. -/
theorem c5_fuzzy_monotone_in_maxDistance (cn : List (String × String))
    (name query : JsVal) (o : MatchOptions) (d d' : ℚ) (hdd : d < d')
    (h : matchesName cn name query { o with fuzzy := true, maxDistance := d } =
      Except.ok true) :
    matchesName cn name query { o with fuzzy := true, maxDistance := d' } =
      Except.ok true :=
  matchesName_mono_maxDistance cn name query { o with fuzzy := true } d d'
    (le_of_lt hdd) h

/-- Witness for C5 at the test suite's fuzzy example: a true fuzzy match at
`maxDistance` 2 stays true at 3. -/
theorem c5_witness :
    (2 : ℚ) < 3 ∧
    matchesName COMMON_NAMES (JsVal.str "xyzabc") (JsVal.str "xyzabcc")
      { fuzzy := true, maxDistance := 2 } = Except.ok true ∧
    matchesName COMMON_NAMES (JsVal.str "xyzabc") (JsVal.str "xyzabcc")
      { fuzzy := true, maxDistance := 3 } = Except.ok true :=
  ⟨by norm_num, by with_unfolding_all decide,
   c5_fuzzy_monotone_in_maxDistance COMMON_NAMES (JsVal.str "xyzabc")
     (JsVal.str "xyzabcc") {} 2 3 (by norm_num) (by with_unfolding_all decide)⟩

theorem cacheKey_data (l : String) (f : Bool) :
    (cacheKey l f).data = l.data ++ ':' :: (if f then "true" else "false").data := by
  cases f <;> simp [cacheKey, String.data_append]

theorem cacheKey_inj {l1 l2 : String} {f1 f2 : Bool}
    (h : cacheKey l1 f1 = cacheKey l2 f2) : l1 = l2 ∧ f1 = f2 := by
  have hd : (cacheKey l1 f1).data = (cacheKey l2 f2).data := by rw [h]
  rw [cacheKey_data, cacheKey_data] at hd
  have hrev := congrArg List.reverse hd
  cases f1 <;> cases f2 <;>
    simp only [List.reverse_append, List.reverse_cons] at hrev <;>
    simp at hrev
  · exact ⟨by
      cases l1; cases l2
      exact congrArg String.mk (List.reverse_inj.mp (by simpa using hrev)), rfl⟩
  · exact ⟨by
      cases l1; cases l2
      exact congrArg String.mk (List.reverse_inj.mp (by simpa using hrev)), rfl⟩

theorem find?_map_upsert (k : String) (v : List String) :
    ∀ es : List (String × List String),
      ((es.map (fun e => if e.1 = k then (k, v) else e)).find? (fun e => e.1 = k)) =
        if es.any (fun e => e.1 = k) then some (k, v) else none := by
  intro es
  induction es with
  | nil => rfl
  | cons e es ih =>
    by_cases he : e.1 = k
    · simp [he, List.find?_cons, ih]
    · have hd : decide (e.1 = k) = false := by simp [he]
      simp [he, ih]
      rw [hd, Bool.false_or]

theorem find?_eq_none_of_any_eq_false {p : String × List String → Bool}
    {es : List (String × List String)} (h : es.any p = false) : es.find? p = none := by
  rw [List.find?_eq_none]
  intro x hx
  rw [List.any_eq_false] at h
  exact fun hp => h x hx hp

theorem getCached_setCache_self (c : TransCache) (k : String) (v : List String) :
    getCached (setCache c k v) k = some v := by
  unfold getCached setCache
  by_cases h :
      ((if c.entries.length ≥ MAX_CACHE_SIZE then c.entries.tail else c.entries).any
        (fun e => e.1 = k)) = true
  · rw [if_pos h]
    simp only [find?_map_upsert, h, if_true]
    rfl
  · rw [if_neg h]
    simp only []
    rw [List.find?_append,
      find?_eq_none_of_any_eq_false (Bool.eq_false_iff.mpr h)]
    simp

theorem CacheValid_getCached {cn : List (String × String)} {c : TransCache}
    (hc : CacheValid cn c) {l : String} {f : Bool} {v : List String}
    (h : getCached c (cacheKey l f) = some v) : v = computeVariants cn l f := by
  unfold getCached at h
  cases hf : c.entries.find? (fun e => e.1 = cacheKey l f) with
  | none => rw [hf] at h; simp at h
  | some e =>
    rw [hf] at h
    have h2 : e.2 = v := Option.some.inj h
    have hmem : e ∈ c.entries := List.mem_of_find?_eq_some hf
    have hkey : e.1 = cacheKey l f := by
      have h3 := List.find?_some hf
      simpa using h3
    rw [← h2]
    exact hc e hmem l f hkey

theorem CacheValid_setCache {cn : List (String × String)} {c : TransCache}
    (hc : CacheValid cn c) (l : String) (f : Bool) :
    CacheValid cn (setCache c (cacheKey l f) (computeVariants cn l f)) := by
  intro e he l' f' hk
  unfold setCache at he
  have hsub : ∀ e', e' ∈ (if c.entries.length ≥ MAX_CACHE_SIZE then c.entries.tail
      else c.entries) → e' ∈ c.entries := by
    intro e' he'
    by_cases hlen : c.entries.length ≥ MAX_CACHE_SIZE
    · rw [if_pos hlen] at he'
      exact List.mem_of_mem_tail he'
    · rw [if_neg hlen] at he'
      exact he'
  by_cases hany :
      ((if c.entries.length ≥ MAX_CACHE_SIZE then c.entries.tail else c.entries).any
        (fun e => e.1 = cacheKey l f)) = true
  · rw [if_pos hany] at he
    simp only [List.mem_map] at he
    obtain ⟨e0, he0, heq⟩ := he
    by_cases h0 : e0.1 = cacheKey l f
    · rw [if_pos h0] at heq
      rw [← heq] at hk
      have hk2 : cacheKey l f = cacheKey l' f' := hk
      obtain ⟨hl, hf⟩ := cacheKey_inj hk2
      rw [← heq, ← hl, ← hf]
    · rw [if_neg h0] at heq
      rw [← heq]
      exact hc e0 (hsub e0 he0) l' f' (heq ▸ hk)
  · rw [if_neg hany] at he
    rcases List.mem_append.mp he with h1 | h2
    · exact hc e (hsub e h1) l' f' hk
    · have he2 : e = (cacheKey l f, computeVariants cn l f) := by simpa using h2
      rw [he2] at hk ⊢
      have hk2 : cacheKey l f = cacheKey l' f' := hk
      obtain ⟨hl, hf⟩ := cacheKey_inj hk2
      rw [← hl, ← hf]

/-- C9: cache transparency — from any valid cache state, calling
`transliterateToAmharic(text, {enableCache:true})` returns the same array
as the cache-free call, and a second cached call in succession returns
that same array again; enabling the cache never changes the variants. -/
theorem c9_cache_transparent (cn : List (String × String)) (text : JsVal) (c : TransCache)
    (hc : CacheValid cn c) :
    (transliterateToAmharicCached cn text true true c).1 =
      (transliterateToAmharicCached cn text true false c).1 ∧
    (transliterateToAmharicCached cn text true true
        (transliterateToAmharicCached cn text true true c).2).1 =
      (transliterateToAmharicCached cn text true true c).1 := by
  unfold transliterateToAmharicCached
  by_cases hb : isBlankStringInput text = true
  · simp [hb]
  · simp only [hb, if_false, Bool.false_eq_true]
    cases hv : validateAndSanitizeInput text MAX_INPUT_LENGTH with
    | error e => simp
    | ok sanitized =>
      dsimp only
      by_cases hl : jsTrim (jsToLower sanitized) = ""
      · simp [hl]
      · simp only [hl, if_false]
        cases hg : getCached c (cacheKey (jsTrim (jsToLower sanitized)) true) with
        | some v =>
          have hveq := CacheValid_getCached hc hg
          simp only [if_true, hg, hveq]
          exact ⟨trivial, trivial⟩
        | none =>
          simp only [if_true, hg]
          rw [getCached_setCache_self]
          exact ⟨trivial, rfl⟩

/-- Witness for C9: the empty cache (the state after `clearCache()`) is
valid, and the theorem applies to it for the input `"amanuel"`. -/
theorem c9_witness :
    CacheValid COMMON_NAMES TransCache.empty ∧
    ((transliterateToAmharicCached COMMON_NAMES (JsVal.str "amanuel") true true
        TransCache.empty).1 =
      (transliterateToAmharicCached COMMON_NAMES (JsVal.str "amanuel") true false
        TransCache.empty).1 ∧
     (transliterateToAmharicCached COMMON_NAMES (JsVal.str "amanuel") true true
        (transliterateToAmharicCached COMMON_NAMES (JsVal.str "amanuel") true true
          TransCache.empty).2).1 =
      (transliterateToAmharicCached COMMON_NAMES (JsVal.str "amanuel") true true
        TransCache.empty).1) :=
  ⟨fun e he _ _ _ => absurd he (List.not_mem_nil e),
   c9_cache_transparent COMMON_NAMES (JsVal.str "amanuel") TransCache.empty
     (fun e he _ _ _ => absurd he (List.not_mem_nil e))⟩

theorem char_toNat_injective {a b : Char} (h : a.toNat = b.toNat) : a = b := by
  cases a with
  | mk v1 h1 =>
    cases b with
    | mk v2 h2 =>
      congr 1
      exact UInt32.ext h

theorem charToNat_ofNat_lt (n : Nat) (h : n < 0xd800) : (Char.ofNat n).toNat = n := by
  unfold Char.ofNat
  rw [dif_pos (Or.inl h)]
  simp [Char.ofNatAux, Char.toNat, UInt32.toNat, BitVec.toNat_ofNatLt]

theorem charOfNat_toNat (c : Char) : Char.ofNat c.toNat = c := by
  apply char_toNat_injective
  have hval : c.toNat < 0xd800 ∨ (0xe000 ≤ c.toNat ∧ c.toNat < 0x110000) := c.valid
  rcases hval with h | ⟨h1, h2⟩
  · exact charToNat_ofNat_lt c.toNat h
  · unfold Char.ofNat
    rw [dif_pos (Or.inr ⟨h1, h2⟩)]
    simp [Char.ofNatAux, Char.toNat, UInt32.toNat, BitVec.toNat_ofNatLt]

theorem toNat_toUpperChar (c : Char) :
    (toUpperChar c).toNat = if 97 ≤ c.toNat ∧ c.toNat ≤ 122 then c.toNat - 32 else c.toNat := by
  unfold toUpperChar
  by_cases h : 97 ≤ c.toNat ∧ c.toNat ≤ 122
  · rw [if_pos (by simp only [Bool.and_eq_true, decide_eq_true_eq]; exact h), if_pos h]
    exact charToNat_ofNat_lt _ (by omega)
  · rw [if_neg (by simp only [Bool.and_eq_true, decide_eq_true_eq]; exact h), if_neg h]

theorem toNat_toLowerChar (c : Char) :
    (toLowerChar c).toNat = if 65 ≤ c.toNat ∧ c.toNat ≤ 90 then c.toNat + 32 else c.toNat := by
  unfold toLowerChar
  by_cases h : 65 ≤ c.toNat ∧ c.toNat ≤ 90
  · rw [if_pos (by simp only [Bool.and_eq_true, decide_eq_true_eq]; exact h), if_pos h]
    exact charToNat_ofNat_lt _ (by omega)
  · rw [if_neg (by simp only [Bool.and_eq_true, decide_eq_true_eq]; exact h), if_neg h]

theorem toLowerChar_toUpperChar (c : Char) :
    toLowerChar (toUpperChar c) = toLowerChar c := by
  apply char_toNat_injective
  rw [toNat_toLowerChar, toNat_toLowerChar, toNat_toUpperChar]
  have hval : c.toNat < 0xd800 ∨ (0xe000 ≤ c.toNat ∧ c.toNat < 0x110000) := c.valid
  split_ifs <;> omega

theorem toLowerChar_toLowerChar (c : Char) :
    toLowerChar (toLowerChar c) = toLowerChar c := by
  apply char_toNat_injective
  rw [toNat_toLowerChar, toNat_toLowerChar]
  split_ifs <;> omega

theorem isJsWhitespace_toUpperChar (c : Char) :
    isJsWhitespace (toUpperChar c) = isJsWhitespace c := by
  unfold isJsWhitespace
  rw [Bool.eq_iff_iff]
  simp only [Bool.or_eq_true, Bool.and_eq_true, decide_eq_true_eq, beq_iff_eq,
    toNat_toUpperChar]
  split_ifs with h <;> constructor <;> intro hh <;> omega

theorem isJsWhitespace_toLowerChar (c : Char) :
    isJsWhitespace (toLowerChar c) = isJsWhitespace c := by
  unfold isJsWhitespace
  rw [Bool.eq_iff_iff]
  simp only [Bool.or_eq_true, Bool.and_eq_true, decide_eq_true_eq, beq_iff_eq,
    toNat_toLowerChar]
  split_ifs with h <;> constructor <;> intro hh <;> omega

theorem isControlChar_toUpperChar (c : Char) :
    isControlChar (toUpperChar c) = isControlChar c := by
  unfold isControlChar
  rw [Bool.eq_iff_iff]
  simp only [Bool.or_eq_true, Bool.and_eq_true, decide_eq_true_eq, toNat_toUpperChar]
  split_ifs with h <;> constructor <;> intro hh <;> omega

theorem isControlChar_toLowerChar (c : Char) :
    isControlChar (toLowerChar c) = isControlChar c := by
  unfold isControlChar
  rw [Bool.eq_iff_iff]
  simp only [Bool.or_eq_true, Bool.and_eq_true, decide_eq_true_eq, toNat_toLowerChar]
  split_ifs with h <;> constructor <;> intro hh <;> omega

theorem toNat_toUpperChar_lt_128 {c : Char} (h : c.toNat < 128) :
    (toUpperChar c).toNat < 128 := by
  rw [toNat_toUpperChar]
  split_ifs <;> omega

theorem jsToUpper_data (s : String) : (jsToUpper s).data = s.data.map toUpperChar := rfl

theorem jsToUpper_length (s : String) : (jsToUpper s).length = s.length := by
  rw [string_length_data, string_length_data, jsToUpper_data, List.length_map]

theorem jsToLower_jsToUpper (s : String) : jsToLower (jsToUpper s) = jsToLower s := by
  unfold jsToLower jsToUpper
  congr 1
  rw [List.map_map]
  exact List.map_congr_left (fun c _ => toLowerChar_toUpperChar c)

theorem jsToLower_jsToLower (s : String) : jsToLower (jsToLower s) = jsToLower s := by
  unfold jsToLower
  congr 1
  rw [List.map_map]
  exact List.map_congr_left (fun c _ => toLowerChar_toLowerChar c)

theorem isJsWhitespace_comp_toUpperChar :
    isJsWhitespace ∘ toUpperChar = isJsWhitespace :=
  funext isJsWhitespace_toUpperChar

theorem isJsWhitespace_comp_toLowerChar :
    isJsWhitespace ∘ toLowerChar = isJsWhitespace :=
  funext isJsWhitespace_toLowerChar

theorem notControl_comp_toUpperChar :
    ((fun c => !isControlChar c) ∘ toUpperChar) = (fun c => !isControlChar c) :=
  funext (fun c => by
    show (!isControlChar (toUpperChar c)) = (!isControlChar c)
    rw [isControlChar_toUpperChar])

theorem notControl_comp_toLowerChar :
    ((fun c => !isControlChar c) ∘ toLowerChar) = (fun c => !isControlChar c) :=
  funext (fun c => by
    show (!isControlChar (toLowerChar c)) = (!isControlChar c)
    rw [isControlChar_toLowerChar])

theorem jsTrimList_map_toUpperChar (l : List Char) :
    jsTrimList (l.map toUpperChar) = (jsTrimList l).map toUpperChar := by
  unfold jsTrimList
  rw [List.dropWhile_map, isJsWhitespace_comp_toUpperChar, ← List.map_reverse,
    List.dropWhile_map, isJsWhitespace_comp_toUpperChar, ← List.map_reverse]

theorem jsTrimList_map_toLowerChar (l : List Char) :
    jsTrimList (l.map toLowerChar) = (jsTrimList l).map toLowerChar := by
  unfold jsTrimList
  rw [List.dropWhile_map, isJsWhitespace_comp_toLowerChar, ← List.map_reverse,
    List.dropWhile_map, isJsWhitespace_comp_toLowerChar, ← List.map_reverse]

theorem jsTrim_jsToUpper (s : String) : jsTrim (jsToUpper s) = jsToUpper (jsTrim s) := by
  unfold jsTrim
  rw [jsToUpper_data, jsTrimList_map_toUpperChar]
  rfl

theorem jsTrim_jsToLower (s : String) : jsTrim (jsToLower s) = jsToLower (jsTrim s) := by
  unfold jsTrim
  rw [jsToLower_data, jsTrimList_map_toLowerChar]
  rfl

theorem stripControl_jsToUpper (s : String) :
    stripControl (jsToUpper s) = jsToUpper (stripControl s) := by
  unfold stripControl
  rw [jsToUpper_data, List.filter_map, notControl_comp_toUpperChar]
  rfl

theorem stripControl_jsToLower (s : String) :
    stripControl (jsToLower s) = jsToLower (stripControl s) := by
  unfold stripControl
  rw [jsToLower_data, List.filter_map, notControl_comp_toLowerChar]
  rfl

theorem validateAndSanitizeInput_jsToUpper (s : String) (maxLength : Nat) :
    validateAndSanitizeInput (JsVal.str (jsToUpper s)) maxLength =
      (validateAndSanitizeInput (JsVal.str s) maxLength).map jsToUpper := by
  simp only [validateAndSanitizeInput, jsToUpper_length, stripControl_jsToUpper,
    jsTrim_jsToUpper]
  by_cases h0 : s.length = 0 <;> by_cases h1 : s.length > maxLength <;>
    by_cases h2 : (jsTrim (stripControl s)).length = 0 <;>
    simp [h0, h1, h2, jsToUpper_length, Except.map]

theorem validateAndSanitizeInput_jsToLower (s : String) (maxLength : Nat) :
    validateAndSanitizeInput (JsVal.str (jsToLower s)) maxLength =
      (validateAndSanitizeInput (JsVal.str s) maxLength).map jsToLower := by
  simp only [validateAndSanitizeInput, jsToLower_length, stripControl_jsToLower,
    jsTrim_jsToLower]
  by_cases h0 : s.length = 0 <;> by_cases h1 : s.length > maxLength <;>
    by_cases h2 : (jsTrim (stripControl s)).length = 0 <;>
    simp [h0, h1, h2, jsToLower_length, Except.map]

theorem jsToLower_eq_empty_iff (s : String) : jsToLower s = "" ↔ s = "" := by
  rw [string_eq_empty_iff_data, string_eq_empty_iff_data, jsToLower_data]
  simp

theorem validateSearchQuery_jsToLower (s : String) :
    validateSearchQuery (JsVal.str (jsToLower s)) =
      (validateSearchQuery (JsVal.str s)).map jsToLower := by
  simp only [validateSearchQuery]
  by_cases hs : s = ""
  · subst hs
    simp [Except.map, show jsToLower "" = "" from rfl]
  · rw [if_neg (fun h => hs ((jsToLower_eq_empty_iff s).mp h)), if_neg hs]
    by_cases ht : jsTrim s = ""
    · rw [if_pos (by rw [jsTrim_jsToLower, (jsToLower_eq_empty_iff _).mpr ht]), if_pos ht]
      rfl
    · rw [if_neg (fun h => ht ((jsToLower_eq_empty_iff _).mp (jsTrim_jsToLower s ▸ h))),
        if_neg ht]
      rw [validateAndSanitizeInput_jsToLower]
      cases validateAndSanitizeInput (JsVal.str s) MAX_QUERY_LENGTH with
      | error e =>
        simp only [Except.map]
        by_cases hc : e.code = "INVALID_CHARACTERS" <;>
          simp [hc, Except.map, show jsToLower "" = "" from rfl]
      | ok r => simp [Except.map]

theorem TrieChildren.get_varsIn {P : String → Prop} :
    ∀ (ch : TrieChildren), TrieChildren.VarsIn P ch → ∀ {c : Char} {t : NameTrie},
      TrieChildren.get ch c = some t → NameTrie.VarsIn P t
  | TrieChildren.nil, _, c, t, h => absurd h (by simp [TrieChildren.get])
  | TrieChildren.cons k u rest, hch, c, t, h => by
    have hch' : NameTrie.VarsIn P u ∧ TrieChildren.VarsIn P rest := hch
    unfold TrieChildren.get at h
    by_cases hk : k = c
    · rw [if_pos hk] at h
      rw [← Option.some.inj h]
      exact hch'.1
    · rw [if_neg hk] at h
      exact TrieChildren.get_varsIn rest hch'.2 h

theorem NameTrie.walk_varsIn {P : String → Prop} :
    ∀ (l : List Char) (t : NameTrie), NameTrie.VarsIn P t →
      ∀ {n : NameTrie}, NameTrie.walk t l = some n → NameTrie.VarsIn P n := by
  intro l
  induction l with
  | nil =>
    intro t ht n h
    cases t with
    | node ch vars e =>
      unfold NameTrie.walk at h
      rw [← Option.some.inj h]
      exact ht
  | cons c rest ih =>
    intro t ht n h
    cases t with
    | node ch vars e =>
      unfold NameTrie.walk at h
      cases hg : TrieChildren.get ch c with
      | none => rw [hg] at h; exact absurd h (by simp)
      | some t' =>
        rw [hg] at h
        obtain ⟨_, hch⟩ := ht
        exact ih t' (TrieChildren.get_varsIn ch hch hg) h

mutual
theorem NameTrie.collect_varsIn (P : String → Prop) :
    ∀ (t : NameTrie), NameTrie.VarsIn P t → ∀ (acc : List String), (∀ v ∈ acc, P v) →
      ∀ v ∈ NameTrie.collectVariants t acc, P v
  | NameTrie.node ch vars e, ht, acc, hacc, v, hv => by
    have ht' : (∀ w ∈ vars, P w) ∧ TrieChildren.VarsIn P ch := ht
    exact TrieChildren.collectChildren_varsIn P ch ht'.2 (vars.foldl setAddStr acc)
      (fun w hw => by
        rcases (mem_foldl_setAddStr vars acc w).mp hw with h | h
        · exact hacc w h
        · exact ht'.1 w h) v hv
theorem TrieChildren.collectChildren_varsIn (P : String → Prop) :
    ∀ (ch : TrieChildren), TrieChildren.VarsIn P ch → ∀ (acc : List String),
      (∀ v ∈ acc, P v) → ∀ v ∈ TrieChildren.collectVariants ch acc, P v
  | TrieChildren.nil, _, _, hacc, v, hv => hacc v hv
  | TrieChildren.cons _ t rest, hch, acc, hacc, v, hv => by
    have hch' : NameTrie.VarsIn P t ∧ TrieChildren.VarsIn P rest := hch
    exact TrieChildren.collectChildren_varsIn P rest hch'.2 (NameTrie.collectVariants t acc)
      (NameTrie.collect_varsIn P t hch'.1 acc hacc) v hv
end

theorem TrieChildren.set_varsIn {P : String → Prop} :
    ∀ (ch : TrieChildren), TrieChildren.VarsIn P ch → ∀ {c : Char} {t : NameTrie},
      NameTrie.VarsIn P t → TrieChildren.VarsIn P (TrieChildren.set ch c t)
  | TrieChildren.nil, _, c, t, ht => ⟨ht, trivial⟩
  | TrieChildren.cons k u rest, hch, c, t, ht => by
    have hch' : NameTrie.VarsIn P u ∧ TrieChildren.VarsIn P rest := hch
    unfold TrieChildren.set
    by_cases hk : k = c
    · rw [if_pos hk]
      exact ⟨ht, hch'.2⟩
    · rw [if_neg hk]
      exact ⟨hch'.1, TrieChildren.set_varsIn rest hch'.2 ht⟩

theorem NameTrie.emptyNode_varsIn (P : String → Prop) :
    NameTrie.VarsIn P NameTrie.emptyNode :=
  ⟨fun v hv => absurd hv (List.not_mem_nil v), trivial⟩

theorem NameTrie.insertAux_varsIn {P : String → Prop} {amharic : String}
    (hP : P amharic) :
    ∀ (l : List Char) (t : NameTrie), NameTrie.VarsIn P t →
      NameTrie.VarsIn P (NameTrie.insertAux t l amharic) := by
  intro l
  induction l with
  | nil =>
    intro t ht
    cases t with
    | node ch vars e =>
      obtain ⟨hvars, hch⟩ := ht
      unfold NameTrie.insertAux
      refine ⟨fun v hv => ?_, hch⟩
      rcases (mem_setAddStr vars amharic v).mp hv with h | rfl
      · exact hvars v h
      · exact hP
  | cons c rest ih =>
    intro t ht
    cases t with
    | node ch vars e =>
      obtain ⟨hvars, hch⟩ := ht
      unfold NameTrie.insertAux
      refine ⟨hvars, TrieChildren.set_varsIn ch hch (ih _ ?_)⟩
      cases hg : TrieChildren.get ch c with
      | none => simpa [hg] using NameTrie.emptyNode_varsIn P
      | some t' => simpa [hg] using TrieChildren.get_varsIn ch hch hg

theorem NameTrie.fromMappings_varsIn (cn : List (String × String)) :
    NameTrie.VarsIn (fun v => ∃ p ∈ cn, v = p.2) (NameTrie.fromMappings cn) := by
  unfold NameTrie.fromMappings
  have hgen : ∀ (l : List (String × String)) (t : NameTrie)
      (P : String → Prop), (∀ p ∈ l, P p.2) → NameTrie.VarsIn P t →
      NameTrie.VarsIn P (l.foldl (fun t p => NameTrie.insert t p.1 p.2) t) := by
    intro l
    induction l with
    | nil => intro t P _ ht; exact ht
    | cons p rest ih =>
      intro t P hl ht
      rw [List.foldl_cons]
      exact ih _ P (fun q hq => hl q (List.mem_cons_of_mem _ hq))
        (NameTrie.insertAux_varsIn (hl p (List.mem_cons_self _ _)) _ t ht)
  exact hgen cn NameTrie.emptyNode _ (fun p hp => ⟨p, hp, rfl⟩)
    (NameTrie.emptyNode_varsIn _)

theorem searchExact_sound {cn : List (String × String)} {q v : String}
    (h : v ∈ NameTrie.searchExact (NameTrie.fromMappings cn) q) :
    ∃ p ∈ cn, v = p.2 := by
  unfold NameTrie.searchExact at h
  cases hw : NameTrie.walk (NameTrie.fromMappings cn) (jsToLower q).data with
  | none => rw [hw] at h; exact absurd h (List.not_mem_nil v)
  | some n =>
    rw [hw] at h
    have hn := NameTrie.walk_varsIn _ _ (NameTrie.fromMappings_varsIn cn) hw
    cases n with
    | node ch vars e =>
      have hn' : (∀ w ∈ vars, ∃ p ∈ cn, w = p.2) ∧ _ := hn
      by_cases he : e = true
      · rw [he] at h
        simp only [if_true] at h
        exact hn'.1 v h
      · rw [eq_false_of_ne_true he] at h
        exact absurd h (by simp)

theorem searchPrefix_sound {cn : List (String × String)} {q v : String}
    (h : v ∈ NameTrie.searchPrefix (NameTrie.fromMappings cn) q) :
    ∃ p ∈ cn, v = p.2 := by
  unfold NameTrie.searchPrefix at h
  cases hw : NameTrie.walk (NameTrie.fromMappings cn) (jsToLower q).data with
  | none => rw [hw] at h; exact absurd h (List.not_mem_nil v)
  | some n =>
    rw [hw] at h
    exact NameTrie.collect_varsIn _ n (NameTrie.walk_varsIn _ _ (NameTrie.fromMappings_varsIn cn) hw)
      [] (fun w hw' => absurd hw' (List.not_mem_nil w)) v h

theorem searchContains_sound {cn : List (String × String)} {q v : String}
    (h : v ∈ NameTrie.searchContains (NameTrie.fromMappings cn) q) :
    ∃ p ∈ cn, v = p.2 := by
  rw [c8_searchContains_is_union_of_suffix_prefix_searches] at h
  obtain ⟨i, _, hv⟩ := h
  exact searchPrefix_sound hv

theorem computeVariants_sound {cn : List (String × String)} {q v : String}
    {flag : Bool} (h : v ∈ computeVariants cn q flag) : ∃ p ∈ cn, v = p.2 := by
  unfold computeVariants getNameTrie at h
  by_cases hf : flag = true
  · rw [hf] at h
    simp only [if_true] at h
    rcases (mem_foldl_setAddStr _ _ v).mp h with h1 | h1
    · rcases (mem_foldl_setAddStr _ _ v).mp h1 with h2 | h2
      · rcases (mem_foldl_setAddStr _ _ v).mp h2 with h3 | h3
        · exact absurd h3 (List.not_mem_nil v)
        · exact searchExact_sound h3
      · exact searchPrefix_sound h2
    · exact searchContains_sound h1
  · rw [eq_false_of_ne_true hf] at h
    simp only [if_false, Bool.false_eq_true] at h
    rcases (mem_foldl_setAddStr _ _ v).mp h with h1 | h1
    · exact absurd h1 (List.not_mem_nil v)
    · exact searchExact_sound h1

theorem transliterateToAmharic_sound {cn : List (String × String)} {text : JsVal}
    {flag : Bool} {vars : List String}
    (h : transliterateToAmharic cn text flag = Except.ok vars) :
    ∀ v ∈ vars, ∃ p ∈ cn, v = p.2 := by
  unfold transliterateToAmharic at h
  by_cases hb : isBlankStringInput text = true
  · rw [if_pos hb] at h
    intro v hv
    rw [← Except.ok.inj h] at hv
    exact absurd hv (List.not_mem_nil v)
  · rw [if_neg hb] at h
    cases hval : validateAndSanitizeInput text MAX_INPUT_LENGTH with
    | error e => rw [hval] at h; exact absurd h (by simp)
    | ok sanitized =>
      rw [hval] at h
      dsimp only at h
      by_cases hl : jsTrim (jsToLower sanitized) = ""
      · rw [if_pos hl] at h
        intro v hv
        rw [← Except.ok.inj h] at hv
        exact absurd hv (List.not_mem_nil v)
      · rw [if_neg hl] at h
        intro v hv
        rw [← Except.ok.inj h] at hv
        exact computeVariants_sound hv

theorem jsIncludes_eq_false_of_disjoint {s v : String} (hv : v.data ≠ [])
    (hdis : ∀ c ∈ s.data, ∀ d ∈ v.data, c ≠ d) : jsIncludes s v = false := by
  unfold jsIncludes
  rw [List.any_eq_false]
  intro t ht hpre
  rw [List.mem_tails] at ht
  rw [List.isPrefixOf_iff_prefix] at hpre
  cases hvd : v.data with
  | nil => exact hv hvd
  | cons d rest =>
    have hd_t : d ∈ t := by
      rw [hvd] at hpre
      exact hpre.subset (List.mem_cons_self _ _)
    have hd_s : d ∈ s.data := ht.subset hd_t
    exact hdis d hd_s d (hvd ▸ List.mem_cons_self _ _) rfl

theorem lev_eq_max_of_disjoint {s v : String}
    (hdis : ∀ c ∈ s.data, ∀ d ∈ v.data, c ≠ d) :
    levenshteinDistance s v = max s.length v.length := by
  unfold levenshteinDistance
  rw [editDP_eq_editRec, editRec_no_common _ _ hdis, string_length_data,
    string_length_data]

theorem disjoint_of_ascii_ethiopic {s v : String}
    (hs : ∀ c ∈ s.data, c.toNat < 128) (hv : ∀ d ∈ v.data, 0x1200 ≤ d.toNat) :
    ∀ c ∈ s.data, ∀ d ∈ v.data, c ≠ d := by
  intro c hc d hd heq
  have h1 := hs c hc
  have h2 := hv d hd
  rw [heq] at h1
  omega

theorem ascii_jsToUpper {a : String} (ha : AsciiString a) :
    AsciiString (jsToUpper a) := by
  intro c hc
  rw [jsToUpper_data] at hc
  obtain ⟨c0, hc0, rfl⟩ := List.mem_map.mp hc
  exact toNat_toUpperChar_lt_128 (ha c0 hc0)

theorem variantStage_congr_raw {raw raw' : String} {vs : List String}
    {o : MatchOptions}
    (h : ∀ v ∈ vs, jsIncludes raw v = jsIncludes raw' v ∧
      levenshteinDistance raw v = levenshteinDistance raw' v) :
    variantStage raw vs o = variantStage raw' vs o := by
  unfold variantStage
  induction vs with
  | nil => rfl
  | cons v vs ih =>
    simp only [List.any_cons]
    rw [(h v (List.mem_cons_self _ _)).1, (h v (List.mem_cons_self _ _)).2,
      ih (fun w hw => h w (List.mem_cons_of_mem _ hw))]

theorem dictionaryStage_congr_raw {cn : List (String × String)}
    {raw raw' ntc qt : String} {o : MatchOptions}
    (h : ∀ p ∈ cn, jsIncludes raw p.2 = jsIncludes raw' p.2) :
    dictionaryStage cn raw ntc qt o = dictionaryStage cn raw' ntc qt o := by
  unfold dictionaryStage
  induction cn with
  | nil => rfl
  | cons p cn ih =>
    simp only [List.any_cons]
    rw [h p (List.mem_cons_self _ _), ih (fun q hq => h q (List.mem_cons_of_mem _ hq))]

theorem matchesNameCore_case_invariant (cn : List (String × String))
    (raw raw' sn sq : String) (o : MatchOptions) (hcs : o.caseSensitive = false)
    (hIncl : ∀ p ∈ cn, jsIncludes raw' p.2 = jsIncludes raw p.2)
    (hLev : ∀ p ∈ cn, levenshteinDistance raw' p.2 = levenshteinDistance raw p.2) :
    matchesNameCore cn raw' (jsToUpper sn) (jsToLower sq) o =
      matchesNameCore cn raw sn sq o := by
  simp only [matchesNameCore, hcs, if_false, Bool.false_eq_true,
    jsToLower_jsToUpper, jsToLower_jsToLower]
  by_cases hsq : sq = ""
  · rw [if_pos ((jsToLower_eq_empty_iff sq).mpr hsq), if_pos hsq]
  · rw [if_neg (fun h => hsq ((jsToLower_eq_empty_iff sq).mp h)), if_neg hsq]
    by_cases hqt : jsTrim (jsToLower sq) = ""
    · rw [if_pos hqt, if_pos hqt]
    · rw [if_neg hqt, if_neg hqt]
      by_cases he :
          (directStage (jsTrim (jsToLower sn)) (jsTrim (jsToLower sq)) o ||
           fuzzyStage (jsTrim (jsToLower sn)) (jsTrim (jsToLower sq)) o ||
           phoneticStage (jsTrim (jsToLower sn)) (jsTrim (jsToLower sq)) o ||
           (containsAmharic (jsTrim (jsToLower sn)) &&
             !containsAmharic (jsTrim (jsToLower sq)) &&
             (if containsAmharic (jsTrim (jsToLower sn)) = true then
               romanizeAmharicToAscii (jsTrim (jsToLower sn)) else "") != "" &&
             romanizedNameStage
               (if containsAmharic (jsTrim (jsToLower sn)) = true then
                 romanizeAmharicToAscii (jsTrim (jsToLower sn)) else "")
               (jsTrim (jsToLower sq)) o) ||
           (!containsAmharic (jsTrim (jsToLower sn)) &&
             containsAmharic (jsTrim (jsToLower sq)) &&
             (if containsAmharic (jsTrim (jsToLower sq)) = true then
               romanizeAmharicToAscii (jsTrim (jsToLower sq)) else "") != "" &&
             romanizedQueryStage (jsTrim (jsToLower sn))
               (if containsAmharic (jsTrim (jsToLower sq)) = true then
                 romanizeAmharicToAscii (jsTrim (jsToLower sq)) else "") o)) = true
      · rw [if_pos he, if_pos he]
      · rw [if_neg he, if_neg he]
        cases hT : transliterateToAmharic cn (JsVal.str (jsTrim (jsToLower sq))) true with
        | error e => rfl
        | ok vars =>
          dsimp only
          have hsound := transliterateToAmharic_sound hT
          have hvst : variantStage raw' vars o = variantStage raw vars o := by
            apply variantStage_congr_raw
            intro v hv
            obtain ⟨p, hp, rfl⟩ := hsound v hv
            exact ⟨hIncl p hp, hLev p hp⟩
          rw [hvst]
          by_cases hvs : variantStage raw vars o = true
          · rw [if_pos hvs, if_pos hvs]
          · rw [if_neg hvs, if_neg hvs]
            congr 1
            exact dictionaryStage_congr_raw hIncl

/-- C6: case invariance — for ASCII inputs with `caseSensitive:false`,
`matchesName(a, b)` equals `matchesName(a.toUpperCase(), b.toLowerCase())`
(stated for any dictionary whose values are non-empty Ethiopic strings,
as the real `COMMON_NAMES` data is). -/
theorem c6_case_invariance (cn : List (String × String)) (a b : String)
    (o : MatchOptions) (hcs : o.caseSensitive = false)
    (ha : AsciiString a) (hb : AsciiString b) (hcn : EthiopicValues cn) :
    matchesName cn (JsVal.str (jsToUpper a)) (JsVal.str (jsToLower b)) o =
      matchesName cn (JsVal.str a) (JsVal.str b) o := by
  unfold matchesName
  rw [validateAndSanitizeInput_jsToUpper, validateSearchQuery_jsToLower]
  cases hn : validateAndSanitizeInput (JsVal.str a) MAX_INPUT_LENGTH with
  | error e => rfl
  | ok sn =>
    dsimp only [Except.map]
    cases hq : validateSearchQuery (JsVal.str b) with
    | error e => rfl
    | ok sq =>
      dsimp only [JsVal.rawStr]
      apply matchesNameCore_case_invariant cn a (jsToUpper a) sn sq o hcs
      · intro p hp
        obtain ⟨hpne, hpeth⟩ := hcn p hp
        rw [jsIncludes_eq_false_of_disjoint hpne
            (disjoint_of_ascii_ethiopic (ascii_jsToUpper ha) hpeth),
          jsIncludes_eq_false_of_disjoint hpne
            (disjoint_of_ascii_ethiopic ha hpeth)]
      · intro p hp
        obtain ⟨hpne, hpeth⟩ := hcn p hp
        rw [lev_eq_max_of_disjoint
            (disjoint_of_ascii_ethiopic (ascii_jsToUpper ha) hpeth),
          lev_eq_max_of_disjoint (disjoint_of_ascii_ethiopic ha hpeth),
          jsToUpper_length]

/-- Witness for C6 at concrete ASCII inputs `"Abebe"`, `"aBE"` against the
modelled dictionary. -/
theorem c6_witness :
    AsciiString "Abebe" ∧ AsciiString "aBE" ∧ EthiopicValues COMMON_NAMES ∧
    matchesName COMMON_NAMES (JsVal.str (jsToUpper "Abebe"))
        (JsVal.str (jsToLower "aBE")) {} =
      matchesName COMMON_NAMES (JsVal.str "Abebe") (JsVal.str "aBE") {} :=
  ⟨by unfold AsciiString; decide, by unfold AsciiString; decide,
   by unfold EthiopicValues; decide,
   c6_case_invariance COMMON_NAMES "Abebe" "aBE" {} rfl
     (by unfold AsciiString; decide) (by unfold AsciiString; decide)
     (by unfold EthiopicValues; decide)⟩
